import Mathlib

set_option maxHeartbeats 1000000

/-!
Verification of `clean_data.py` (US election tweet cleaning).

Shallow embedding of the tweet-cleaning pipeline from `src/clean_data.py`:
the pure text normalizer `clean_text`, the language filter `is_english`,
and the per-source cleaning pipeline `load_and_clean` over an in-memory
model of a pandas `DataFrame` read with `dtype=str`.

Strings are modelled as `List Char`.  Regex substitutions are modelled as
structural scanners with the same leftmost, non-overlapping, greedy
semantics as `re.sub` for the concrete patterns of the source file.
-/

abbrev Str := List Char

def strL (s : String) : Str := s.toList

/-- Python's `\s` / `str.isspace` character class (the whitespace set used by
`MULTISPACE_RE`, `RT_RE`'s `\s`, `str.strip`, and `\S` complement). -/
def isSpacePy (c : Char) : Bool :=
  c = ' ' || c = '\t' || c = '\n' || c = '\x0b' || c = '\x0c' || c = '\r' ||
  c = '\x1c' || c = '\x1d' || c = '\x1e' || c = '\x1f' || c = '\x85' || c = '\xa0' ||
  c = '\u1680' || c = '\u2000' || c = '\u2001' || c = '\u2002' || c = '\u2003' ||
  c = '\u2004' || c = '\u2005' || c = '\u2006' || c = '\u2007' || c = '\u2008' ||
  c = '\u2009' || c = '\u200a' || c = '\u2028' || c = '\u2029' || c = '\u202f' ||
  c = '\u205f' || c = '\u3000'

/-- Model of `str.lower` on one character.  ASCII case mapping, written out so that
every lemma about it is a finite case split; non-ASCII case mappings (which
none of the verified claims exercise) leave the character unchanged. -/
def pyLowerChar (c : Char) : Char :=
  if c = 'A' then 'a' else if c = 'B' then 'b' else if c = 'C' then 'c' else
  if c = 'D' then 'd' else if c = 'E' then 'e' else if c = 'F' then 'f' else
  if c = 'G' then 'g' else if c = 'H' then 'h' else if c = 'I' then 'i' else
  if c = 'J' then 'j' else if c = 'K' then 'k' else if c = 'L' then 'l' else
  if c = 'M' then 'm' else if c = 'N' then 'n' else if c = 'O' then 'o' else
  if c = 'P' then 'p' else if c = 'Q' then 'q' else if c = 'R' then 'r' else
  if c = 'S' then 's' else if c = 'T' then 't' else if c = 'U' then 'u' else
  if c = 'V' then 'v' else if c = 'W' then 'w' else if c = 'X' then 'x' else
  if c = 'Y' then 'y' else if c = 'Z' then 'z' else c

/-- Model of `str.lower` over a whole string (the final `.lower()` of `clean_text`). -/
def pyLower (s : Str) : Str := s.map pyLowerChar

/-- Python's `\w` word-character class, on the ASCII range (the `@\w+` and
`#(\w+)` patterns; non-ASCII word characters are not exercised by the
verified claims). -/
def isWordChar (c : Char) : Bool :=
  ('a' ≤ c && c ≤ 'z') || ('A' ≤ c && c ≤ 'Z') || ('0' ≤ c && c ≤ '9') || c = '_'

/-- Case-insensitive `r` (for `RT_RE`'s `rt` with `re.IGNORECASE`). -/
def isCiR (c : Char) : Bool := c = 'r' || c = 'R'

/-- Case-insensitive `t`. -/
def isCiT (c : Char) : Bool := c = 't' || c = 'T'

/-- Model of `str.isascii` on one character. -/
def isAsciiChar (c : Char) : Bool := c.toNat < 128

/-- Drop the maximal run of trailing whitespace (right half of `str.strip`). -/
def dropTrail : Str → Str
  | [] => []
  | c :: rest =>
    let r := dropTrail rest
    if r.isEmpty then (if isSpacePy c then [] else [c]) else c :: r

/-- Python `str.strip()`: remove leading and trailing whitespace. -/
def pyStrip (s : Str) : Str := dropTrail (s.dropWhile isSpacePy)

/-- The maximal non-whitespace run at the head of `s` (what `\S+` matches
starting at the head). -/
def nsp (s : Str) : Str := s.takeWhile (fun c => !isSpacePy c)

/-- Length of the maximal leading non-whitespace run. -/
def nsRun (s : Str) : Nat := (nsp s).length

/-- Does `s` start with `lit` case-insensitively? (`lit` is written in
lowercase; `re.IGNORECASE` literal matching.) -/
def startsCi : Str → Str → Bool
  | [], _ => true
  | _ :: _, [] => false
  | p :: ps, c :: cs => pyLowerChar c = p && startsCi ps cs

/-- Replace one character by another everywhere (`str.replace` for
single-character arguments, as used for `"\n"` and `"\r"`). -/
def replaceChar (a b : Char) (s : Str) : Str :=
  s.map (fun c => if c = a then b else c)

/-! ## The text normalizer `clean_text` (src/clean_data.py lines 94-105)

Each regex substitution is embedded as a scanner over `List Char` with the
leftmost, non-overlapping, greedy semantics of `re.sub` for that pattern.
-/

/-- Model of `html.unescape`, restricted to the named character references exercised
in this development (`amp`, `lt`, `gt`, `quot`, each with and without the
terminating `;`, mirroring CPython's HTML5 table entries for them).  A `&`
that does not begin one of these references is left unchanged, and the
replacement text is not rescanned, exactly as in CPython's
`_charref.sub(_replace_charref, s)`. -/
def htmlUnescape : Str → Str
  | '&' :: 'a' :: 'm' :: 'p' :: ';' :: rem => '&' :: htmlUnescape rem
  | '&' :: 'a' :: 'm' :: 'p' :: rem => '&' :: htmlUnescape rem
  | '&' :: 'l' :: 't' :: ';' :: rem => '<' :: htmlUnescape rem
  | '&' :: 'l' :: 't' :: rem => '<' :: htmlUnescape rem
  | '&' :: 'g' :: 't' :: ';' :: rem => '>' :: htmlUnescape rem
  | '&' :: 'g' :: 't' :: rem => '>' :: htmlUnescape rem
  | '&' :: 'q' :: 'u' :: 'o' :: 't' :: ';' :: rem => '"' :: htmlUnescape rem
  | '&' :: 'q' :: 'u' :: 'o' :: 't' :: rem => '"' :: htmlUnescape rem
  | '&' :: rest => '&' :: htmlUnescape rest
  | c :: rest => c :: htmlUnescape rest
  | [] => []

/-- Model of `RT_RE.sub("", text)` for `RT_RE = ^\s*rt\s+` (IGNORECASE): if the text
starts with optional whitespace, then `rt` in any case, then at least one
whitespace character, remove that whole prefix (the greedy `\s+` takes the
maximal whitespace run).  The pattern is anchored, so at most one
substitution happens. -/
def rtStrip (s : Str) : Str :=
  match s.dropWhile isSpacePy with
  | r :: t :: c :: rest =>
    if isCiR r && isCiT t && isSpacePy c then (c :: rest).dropWhile isSpacePy
    else s
  | _ => s

/-- Does a match of `URL_RE = https?://\S+|www\.\S+` (IGNORECASE) start at
the head of `s`?  A match starts here iff one of the three literal openings
is present (case-insensitively) and is followed by at least one further
non-whitespace character; the greedy `\S+` then extends the match to the
whole maximal non-whitespace run (`nsRun s` characters). -/
def urlMatchAt (s : Str) : Bool :=
  (startsCi ['h','t','t','p','s',':','/','/'] s && decide (9 ≤ nsRun s)) ||
  (startsCi ['h','t','t','p',':','/','/'] s && decide (8 ≤ nsRun s)) ||
  (startsCi ['w','w','w','.'] s && decide (5 ≤ nsRun s))

/-- Scanner for `URL_RE.sub("", text)`.  The flag records whether we are
inside the non-whitespace run of a match being deleted: a match consumes
its whole maximal non-whitespace run, and scanning resumes at the
whitespace character (or end) that terminates it. -/
def uRun : Bool → Str → Str
  | _, [] => []
  | skip, c :: rest =>
    if skip && !isSpacePy c then uRun true rest
    else if urlMatchAt (c :: rest) then uRun true rest
    else c :: uRun false rest

/-- Model of `URL_RE.sub("", text)`. -/
def urlSub (s : Str) : Str := uRun false s

/-- Scanner for `MENTION_RE.sub("", text)` with `MENTION_RE = @\w+`: an `@`
followed by at least one word character is deleted together with the
maximal word-character run after it (greedy `\w+`); the flag records
whether we are inside such a run being deleted. -/
def mRun : Bool → Str → Str
  | _, [] => []
  | skip, c :: rest =>
    if skip && isWordChar c then mRun true rest
    else if c = '@' && (match rest with | d :: _ => isWordChar d | [] => false) then
      mRun true rest
    else c :: mRun false rest

/-- Model of `MENTION_RE.sub("", text)`. -/
def mentionSub (s : Str) : Str := mRun false s

/-- Model of `HASHTAG_RE.sub(r"\1", text)` with `HASHTAG_RE = #(\w+)`: a `#`
immediately followed by a word character is deleted and the captured word
characters are kept verbatim.  Since the replacement equals the matched
word run and contains no `#`, continuing the scan over those kept
characters is equivalent to `re.sub`'s continuing after the match. -/
def hashtagSub : Str → Str
  | [] => []
  | c :: rest =>
    if c = '#' && (match rest with | d :: _ => isWordChar d | [] => false) then
      hashtagSub rest
    else c :: hashtagSub rest

/-- Scanner for `MULTISPACE_RE.sub(" ", text)` with `MULTISPACE_RE = \s+`:
every maximal whitespace run becomes a single space.  The flag records
whether the previous character belonged to a whitespace run already
collapsed. -/
def cRun : Bool → Str → Str
  | _, [] => []
  | inRun, c :: rest =>
    if isSpacePy c then
      (if inRun then cRun true rest else ' ' :: cRun true rest)
    else c :: cRun false rest

/-- Model of `MULTISPACE_RE.sub(" ", text)`. -/
def collapseWs (s : Str) : Str := cRun false s

/-- The body of `clean_text` on a (non-null) string, following
src/clean_data.py lines 97-105 step by step. -/
def cleanTextStr (s : Str) : Str :=
  pyLower (pyStrip (collapseWs (replaceChar '\r' ' '
    (replaceChar '\n' ' ' (hashtagSub (mentionSub (urlSub
      (rtStrip (htmlUnescape s)))))))))

/-- Model of `clean_text` (src/clean_data.py lines 94-105); `none` models the Python
`None` input, mapped to the empty string by the `text is None` guard. -/
def clean_text : Option Str → Str
  | none => []
  | some s => cleanTextStr s

/-! ## Language filter `is_english` (src/clean_data.py lines 108-116)

`langdetect.detect` is an external probabilistic classifier; it is embedded
as an oracle parameter.  `detect(text)` either returns a language code or
raises `LangDetectException`; the surrounding module may also lack the
capability altogether (the `detect is None` branch), modelled by an absent
oracle. -/

/-- Outcome of one call to `langdetect.detect`: a language code, or a
raised `LangDetectException`. -/
inductive DetectResult where
  | lang (code : Str)
  | failure
deriving DecidableEq

/-- The language-detection capability: `none` models `detect is None`
(capability unavailable), `some d` models a working `detect`. -/
def Detector := Option (Str → DetectResult)

/-- Model of `is_english` (src/clean_data.py lines 108-116): empty text is rejected;
without a detector the ASCII heuristic `text.isascii()` is used; a raised
`LangDetectException` is treated as "not English". -/
def is_english (det : Detector) (text : Str) : Bool :=
  if text.isEmpty then false
  else
    match det with
    | none => text.all isAsciiChar
    | some d =>
      match d text with
      | DetectResult.lang code => code = strL "en"
      | DetectResult.failure => false

/-! ## The per-source pipeline `load_and_clean` (src/clean_data.py lines 119-152)

A pandas `DataFrame` read with `dtype=str` is modelled as a list of column
names plus a list of rows of string cells (`Frame`).  Cell access out of
range yields the empty string (never exercised on well-formed frames).  The
steps of `load_and_clean` are embedded as named stage functions applied in
the source's order. -/

structure Frame where
  cols : List Str
  rows : List (List Str)
deriving DecidableEq

/-- Index of the first column with the given name (`df.columns` lookup). -/
def idxOf (n : Str) : List Str → Option Nat
  | [] => none
  | c :: cs => if c = n then some 0 else (idxOf n cs).map (· + 1)

/-- Cell at position `i` of a row, empty when out of range. -/
def getCell : List Str → Nat → Str
  | [], _ => []
  | v :: _, 0 => v
  | _ :: vs, n + 1 => getCell vs n

/-- Replace the cell at position `i` of a row. -/
def setCell : List Str → Nat → Str → List Str
  | [], _, _ => []
  | _ :: vs, 0, w => w :: vs
  | v :: vs, n + 1, w => v :: setCell vs n w

/-- Canonical column names. -/
def tweetIdName : Str := strL "tweet_id"

def textName : Str := strL "text"

def labelName : Str := strL "label"

def yearName : Str := strL "year"

def createdAtName : Str := strL "created_at"

/-- Canonical output schema (line 147). -/
def canonCols : List Str := [tweetIdName, textName, labelName, yearName]

/-- One entry of the `FILES` configuration table (lines 28-61): label, year
and the raw id/text/date column names.  The file path is external I/O and
out of scope; the raw table itself is the pipeline input. -/
structure SourceConfig where
  label : Str
  year : Nat
  id_col : Str
  text_col : Str
  date_col : Str
deriving DecidableEq

/-- Keep a column? (line 122: drop names starting with `"Unnamed"` or
whitespace-only names). -/
def keepCol (n : Str) : Bool :=
  !(strL "Unnamed").isPrefixOf n && !(pyStrip n).isEmpty

/-- Drop unnamed/empty columns (lines 122-124). -/
def dropUnnamed (f : Frame) : Frame :=
  { cols := f.cols.filter keepCol,
    rows := f.rows.map (fun r => ((f.cols.zip r).filter (fun p => keepCol p.1)).map (·.2)) }

/-- The `rename_map` of lines 126-131 applied to one column name.  pandas
`rename` maps every column through the dict and ignores absent keys; when
two configured names coincide the later dict entry wins, so the text
mapping is tested first, then date, then id. -/
def renameCol (cfg : SourceConfig) (n : Str) : Str :=
  if n = cfg.text_col then textName
  else if n = cfg.date_col then createdAtName
  else if n = cfg.id_col then tweetIdName
  else n

/-- Model of `df.rename(columns=rename_map)` (line 131). -/
def renameFrame (cfg : SourceConfig) (f : Frame) : Frame :=
  { cols := f.cols.map (renameCol cfg), rows := f.rows }

/-- Model of `df[n] = v` for a constant `v` (lines 133-134): overwrite every column
named `n`, or append a new column. -/
def setConst (f : Frame) (n : Str) (v : Str) : Frame :=
  if n ∈ f.cols then
    { cols := f.cols,
      rows := f.rows.map (fun r => (f.cols.zip r).map (fun p => if p.1 = n then v else p.2)) }
  else
    { cols := f.cols ++ [n], rows := f.rows.map (· ++ [v]) }

/-- Column reconciliation (lines 122-131). -/
def reconcile (cfg : SourceConfig) (raw : Frame) : Frame :=
  renameFrame cfg (dropUnnamed raw)

/-- Label/year stamping (lines 133-134); `str(config["year"])`. -/
def stamp (cfg : SourceConfig) (f : Frame) : Frame :=
  setConst (setConst f labelName cfg.label) yearName (Nat.toDigits 10 cfg.year)

/-- Model of `df["text"] = df["text"].apply(clean_text)` (line 136), given the index
`i` of the text column. -/
def cleanStage (i : Nat) (f : Frame) : Frame :=
  { cols := f.cols, rows := f.rows.map (fun r => setCell r i (cleanTextStr (getCell r i))) }

/-- Model of `df = df[df["text"].apply(is_english)]` (line 138). -/
def englishStage (det : Detector) (i : Nat) (f : Frame) : Frame :=
  { cols := f.cols, rows := f.rows.filter (fun r => is_english det (getCell r i)) }

/-- Model of `df = df[df["text"].astype(bool)]` (line 140): keep non-empty text. -/
def nonemptyStage (i : Nat) (f : Frame) : Frame :=
  { cols := f.cols, rows := f.rows.filter (fun r => !(getCell r i).isEmpty) }

/-- Model of `drop_duplicates(..., keep="first")` on a key: keep a row iff its key
was not seen in an earlier row. -/
def dedupAux (key : List Str → Str) (seen : List Str) : List (List Str) → List (List Str)
  | [] => []
  | r :: rest =>
    if key r ∈ seen then dedupAux key seen rest
    else r :: dedupAux key (key r :: seen) rest

/-- First-occurrence deduplication by a key function. -/
def dedupKeyed (key : List Str → Str) (rows : List (List Str)) : List (List Str) :=
  dedupAux key [] rows

/-- Lines 142-145: dedup by `tweet_id` when that column exists, otherwise
by the (cleaned) `text` column at index `ti`. -/
def dedupStage (f : Frame) (ti : Nat) : Frame :=
  match idxOf tweetIdName f.cols with
  | some j => { cols := f.cols, rows := dedupKeyed (fun r => getCell r j) f.rows }
  | none => { cols := f.cols, rows := dedupKeyed (fun r => getCell r ti) f.rows }

/-- Model of `df[col] = ""` for a missing canonical column (lines 148-150). -/
def ensureCol (f : Frame) (n : Str) : Frame :=
  if n ∈ f.cols then f
  else { cols := f.cols ++ [n], rows := f.rows.map (· ++ [[]]) }

def ensureAll (f : Frame) : List Str → Frame
  | [] => f
  | n :: ns => ensureAll (ensureCol f n) ns

/-- Model of `df[columns]` (line 152): project onto the canonical schema in order. -/
def selectCols (f : Frame) (ns : List Str) : Frame :=
  { cols := ns,
    rows := f.rows.map (fun r => ns.map (fun n =>
      match idxOf n f.cols with
      | some k => getCell r k
      | none => [])) }

/-- Lines 147-152. -/
def projectStage (f : Frame) : Frame :=
  selectCols (ensureAll f canonCols) canonCols

/-- The frame produced by lines 136-152 once the text column has been
located at index `i`. -/
def pipelineTail (det : Detector) (i : Nat) (f : Frame) : Frame :=
  projectStage (dedupStage (nonemptyStage i (englishStage det i (cleanStage i f))) i)

/-- Model of `load_and_clean` (lines 119-152).  `df["text"]` on a frame with no
`text` column raises `KeyError('text')`, modelled as `Except.error` holding
the missing column name; everything downstream is total. -/
def load_and_clean (det : Detector) (cfg : SourceConfig) (raw : Frame) : Except Str Frame :=
  match idxOf textName (stamp cfg (reconcile cfg raw)).cols with
  | none => Except.error textName
  | some i => Except.ok (pipelineTail det i (stamp cfg (reconcile cfg raw)))

/-! ## String predicates used by the invariants -/

/-- Is the head of `rest` a `t`/`T` while `a` is an `r`/`R`? -/
def rtPair (a : Char) : Str → Bool
  | b :: _ => isCiR a && isCiT b
  | [] => false

/-- Does the string contain an `r`/`R` immediately followed by `t`/`T`? -/
def hasRT : Str → Bool
  | [] => false
  | a :: rest => rtPair a rest || hasRT rest

/-- Does a `URL_RE` match start at some position of the string? -/
def hasUrl : Str → Bool
  | [] => false
  | c :: rest => urlMatchAt (c :: rest) || hasUrl rest

/-- Are `a` and the head of `rest` both whitespace? -/
def spacePair (a : Char) : Str → Bool
  | b :: _ => isSpacePy a && isSpacePy b
  | [] => false

/-- No two adjacent whitespace characters. -/
def noTwoSpaces : Str → Bool
  | [] => true
  | a :: rest => !spacePair a rest && noTwoSpaces rest

/-- The first character, if any, is not whitespace. -/
def firstNonSpace : Str → Bool
  | [] => true
  | c :: _ => !isSpacePy c

/-- The last character, if any, is not whitespace. -/
def lastNonSpace : Str → Bool
  | [] => true
  | c :: rest => if rest.isEmpty then !isSpacePy c else lastNonSpace rest

/-! ## Deduplication lemmas -/

/-- First-occurrence deduplication, as a specification: the output is a
sublist of the input, its keys are pairwise distinct, every output row is
the first input row carrying its key, and every input key is represented. -/
def KeepsFirstBy (key : List Str → Str) (inp out : List (List Str)) : Prop :=
  out.Sublist inp ∧
  out.Pairwise (fun r s => key r ≠ key s) ∧
  (∀ r ∈ out, inp.find? (fun s => key s == key r) = some r) ∧
  (∀ r ∈ inp, ∃ s ∈ out, key s = key r)

/-! ## Witness fixtures -/

def detEnW : Detector := some (fun _ => DetectResult.lang (strL "en"))

def cfgW0 : SourceConfig :=
  { label := strL "democrat", year := 2020, id_col := strL "tweet_id",
    text_col := strL "tweet", date_col := strL "created_at" }

def rawW0 : Frame :=
  { cols := [strL "tweet_id", strL "tweet", strL "created_at"],
    rows := [[strL "1", strL "Hello World", strL "d1"],
             [strL "1", strL "other text", strL "d2"],
             [strL "2", strL "http://x.co/a", strL "d3"]] }

def cfgW2 : SourceConfig :=
  { label := strL "democrat", year := 2024, id_col := strL "Tweet ID",
    text_col := strL "Text", date_col := strL "Date" }

def rawW2 : Frame :=
  { cols := [strL "Tweet ID", strL "Text"],
    rows := [[strL "9", strL "Nice day"]] }

def rawW3 : Frame :=
  { cols := [strL "Tweet ID", strL "Date"],
    rows := [[strL "9", strL "2024-01-01"]] }

def frameW : Frame :=
  { cols := [strL "tweet_id", strL "text"],
    rows := [[strL "1", strL "aaa"], [strL "1", strL "bbb"], [strL "2", strL "ccc"]] }

/-! ## Character-level lemmas -/

/-- Case analysis for `pyLowerChar`: either it fixes `c`, or `c` is an
ASCII uppercase letter paired with its lowercase image. -/
theorem pyLowerChar_cases (c : Char) :
    pyLowerChar c = c ∨ (c, pyLowerChar c) ∈
      [('A','a'), ('B','b'), ('C','c'), ('D','d'), ('E','e'), ('F','f'),
       ('G','g'), ('H','h'), ('I','i'), ('J','j'), ('K','k'), ('L','l'),
       ('M','m'), ('N','n'), ('O','o'), ('P','p'), ('Q','q'), ('R','r'),
       ('S','s'), ('T','t'), ('U','u'), ('V','v'), ('W','w'), ('X','x'),
       ('Y','y'), ('Z','z')] := by
  by_cases hA : c = 'A'
  · subst hA; right; decide
  by_cases hB : c = 'B'
  · subst hB; right; decide
  by_cases hC : c = 'C'
  · subst hC; right; decide
  by_cases hD : c = 'D'
  · subst hD; right; decide
  by_cases hE : c = 'E'
  · subst hE; right; decide
  by_cases hF : c = 'F'
  · subst hF; right; decide
  by_cases hG : c = 'G'
  · subst hG; right; decide
  by_cases hH : c = 'H'
  · subst hH; right; decide
  by_cases hI : c = 'I'
  · subst hI; right; decide
  by_cases hJ : c = 'J'
  · subst hJ; right; decide
  by_cases hK : c = 'K'
  · subst hK; right; decide
  by_cases hL : c = 'L'
  · subst hL; right; decide
  by_cases hM : c = 'M'
  · subst hM; right; decide
  by_cases hN : c = 'N'
  · subst hN; right; decide
  by_cases hO : c = 'O'
  · subst hO; right; decide
  by_cases hP : c = 'P'
  · subst hP; right; decide
  by_cases hQ : c = 'Q'
  · subst hQ; right; decide
  by_cases hR : c = 'R'
  · subst hR; right; decide
  by_cases hS : c = 'S'
  · subst hS; right; decide
  by_cases hT : c = 'T'
  · subst hT; right; decide
  by_cases hU : c = 'U'
  · subst hU; right; decide
  by_cases hV : c = 'V'
  · subst hV; right; decide
  by_cases hW : c = 'W'
  · subst hW; right; decide
  by_cases hX : c = 'X'
  · subst hX; right; decide
  by_cases hY : c = 'Y'
  · subst hY; right; decide
  by_cases hZ : c = 'Z'
  · subst hZ; right; decide
  left
  unfold pyLowerChar
  rw [if_neg hA, if_neg hB, if_neg hC, if_neg hD, if_neg hE, if_neg hF, if_neg hG, if_neg hH, if_neg hI, if_neg hJ, if_neg hK, if_neg hL, if_neg hM, if_neg hN, if_neg hO, if_neg hP, if_neg hQ, if_neg hR, if_neg hS, if_neg hT, if_neg hU, if_neg hV, if_neg hW, if_neg hX, if_neg hY, if_neg hZ]

/-- Bundle of facts about `pyLowerChar` in the shifted case. -/
theorem pyLowerChar_pair (c : Char) :
    pyLowerChar c = c ∨
    (isSpacePy c = false ∧ isSpacePy (pyLowerChar c) = false ∧
     (pyLowerChar c = 'r' → c = 'R') ∧ (pyLowerChar c = 't' → c = 'T') ∧
     (pyLowerChar c = 'R' → False) ∧ (pyLowerChar c = 'T' → False) ∧
     (pyLowerChar c = '&' → False) ∧ (pyLowerChar c = '@' → False) ∧
     (pyLowerChar c = '#' → False) ∧ (pyLowerChar c = '\n' → False) ∧
     (pyLowerChar c = '\r' → False) ∧ (pyLowerChar c = ' ' → False) ∧
     pyLowerChar (pyLowerChar c) = pyLowerChar c) := by
  rcases pyLowerChar_cases c with h | h
  · exact Or.inl h
  · right
    simp only [List.mem_cons, List.not_mem_nil, or_false, Prod.mk.injEq] at h
    rcases h with ⟨rfl, -⟩ | ⟨rfl, -⟩ | ⟨rfl, -⟩ | ⟨rfl, -⟩ | ⟨rfl, -⟩ | ⟨rfl, -⟩ |
      ⟨rfl, -⟩ | ⟨rfl, -⟩ | ⟨rfl, -⟩ | ⟨rfl, -⟩ | ⟨rfl, -⟩ | ⟨rfl, -⟩ | ⟨rfl, -⟩ |
      ⟨rfl, -⟩ | ⟨rfl, -⟩ | ⟨rfl, -⟩ | ⟨rfl, -⟩ | ⟨rfl, -⟩ | ⟨rfl, -⟩ | ⟨rfl, -⟩ |
      ⟨rfl, -⟩ | ⟨rfl, -⟩ | ⟨rfl, -⟩ | ⟨rfl, -⟩ | ⟨rfl, -⟩ | ⟨rfl, -⟩ <;> decide

theorem pyLowerChar_idem (c : Char) : pyLowerChar (pyLowerChar c) = pyLowerChar c := by
  rcases pyLowerChar_pair c with h | h
  · rw [h]; exact h
  · exact h.2.2.2.2.2.2.2.2.2.2.2.2

theorem isSpacePy_pyLowerChar (c : Char) : isSpacePy (pyLowerChar c) = isSpacePy c := by
  rcases pyLowerChar_pair c with h | h
  · rw [h]
  · rw [h.1, h.2.1]

theorem pyLowerChar_of_space (c : Char) (h : isSpacePy c = true) : pyLowerChar c = c := by
  rcases pyLowerChar_pair c with h2 | h2
  · exact h2
  · rw [h2.1] at h; exact absurd h (by decide)

theorem pyLowerChar_eq_amp (c : Char) (h : pyLowerChar c = '&') : c = '&' := by
  rcases pyLowerChar_pair c with h2 | h2
  · rw [h2] at h; exact h
  · exact absurd h h2.2.2.2.2.2.2.1

theorem pyLowerChar_eq_at (c : Char) (h : pyLowerChar c = '@') : c = '@' := by
  rcases pyLowerChar_pair c with h2 | h2
  · rw [h2] at h; exact h
  · exact absurd h h2.2.2.2.2.2.2.2.1

theorem pyLowerChar_eq_hash (c : Char) (h : pyLowerChar c = '#') : c = '#' := by
  rcases pyLowerChar_pair c with h2 | h2
  · rw [h2] at h; exact h
  · exact absurd h h2.2.2.2.2.2.2.2.2.1

theorem pyLowerChar_eq_nl (c : Char) (h : pyLowerChar c = '\n') : c = '\n' := by
  rcases pyLowerChar_pair c with h2 | h2
  · rw [h2] at h; exact h
  · exact absurd h h2.2.2.2.2.2.2.2.2.2.1

theorem pyLowerChar_eq_cr (c : Char) (h : pyLowerChar c = '\r') : c = '\r' := by
  rcases pyLowerChar_pair c with h2 | h2
  · rw [h2] at h; exact h
  · exact absurd h h2.2.2.2.2.2.2.2.2.2.2.1

theorem isCiR_pyLowerChar (c : Char) (h : isCiR (pyLowerChar c) = true) : isCiR c = true := by
  rcases pyLowerChar_pair c with h2 | h2
  · rw [h2] at h; exact h
  · simp only [isCiR, Bool.or_eq_true, decide_eq_true_eq] at h ⊢
    rcases h with h | h
    · exact Or.inr (h2.2.2.1 h)
    · exact absurd h h2.2.2.2.2.1

theorem isCiT_pyLowerChar (c : Char) (h : isCiT (pyLowerChar c) = true) : isCiT c = true := by
  rcases pyLowerChar_pair c with h2 | h2
  · rw [h2] at h; exact h
  · simp only [isCiT, Bool.or_eq_true, decide_eq_true_eq] at h ⊢
    rcases h with h | h
    · exact Or.inr (h2.2.2.2.1 h)
    · exact absurd h h2.2.2.2.2.2.1

/-! ## Generic helper lemmas -/

theorem dropWhile_len_le (p : Char → Bool) (l : Str) :
    (l.dropWhile p).length ≤ l.length :=
  (List.dropWhile_sublist p).length_le

theorem isCiT_nonspace (b : Char) (h : isCiT b = true) : isSpacePy b = false := by
  unfold isCiT at h
  simp only [Bool.or_eq_true, decide_eq_true_eq] at h
  rcases h with rfl | rfl <;> decide

theorem isCiR_nonspace (b : Char) (h : isCiR b = true) : isSpacePy b = false := by
  unfold isCiR at h
  simp only [Bool.or_eq_true, decide_eq_true_eq] at h
  rcases h with rfl | rfl <;> decide

theorem hasRT_cons (c : Char) (l : Str) (h : hasRT l = true) : hasRT (c :: l) = true := by
  unfold hasRT
  rw [h]
  simp

theorem hasRT_pair (a b : Char) (t : Str) (hr : isCiR a = true) (ht : isCiT b = true) :
    hasRT (a :: b :: t) = true := by
  unfold hasRT
  have hp : rtPair a (b :: t) = (isCiR a && isCiT b) := rfl
  rw [hp, hr, ht]
  simp

theorem hasRT_cons_elim (a : Char) (rest : Str) (h : hasRT (a :: rest) = true) :
    rtPair a rest = true ∨ hasRT rest = true := by
  unfold hasRT at h
  simpa using h

theorem hasRT_dropWhile (p : Char → Bool) (l : Str) (h : hasRT (l.dropWhile p) = true) :
    hasRT l = true := by
  induction l with
  | nil => exact h
  | cons c rest ih =>
    rw [List.dropWhile_cons] at h
    by_cases hp : p c = true
    · simp only [hp, if_true] at h
      exact hasRT_cons c rest (ih h)
    · simp only [hp] at h
      simpa using h

theorem hasUrl_cons (c : Char) (l : Str) (h : hasUrl l = true) : hasUrl (c :: l) = true := by
  unfold hasUrl
  rw [h]
  simp

theorem hasUrl_dropWhile (p : Char → Bool) (l : Str) (h : hasUrl (l.dropWhile p) = true) :
    hasUrl l = true := by
  induction l with
  | nil => exact h
  | cons c rest ih =>
    rw [List.dropWhile_cons] at h
    by_cases hp : p c = true
    · simp only [hp, if_true] at h
      exact hasUrl_cons c rest (ih h)
    · simp only [hp] at h
      simpa using h

theorem noTwoSpaces_tail (c : Char) (l : Str) (h : noTwoSpaces (c :: l) = true) :
    noTwoSpaces l = true := by
  unfold noTwoSpaces at h
  simp only [Bool.and_eq_true] at h
  exact h.2

theorem noTwoSpaces_dropWhile (p : Char → Bool) (l : Str) (h : noTwoSpaces l = true) :
    noTwoSpaces (l.dropWhile p) = true := by
  induction l with
  | nil => exact h
  | cons c rest ih =>
    rw [List.dropWhile_cons]
    by_cases hp : p c = true
    · simp only [hp, if_true]
      exact ih (noTwoSpaces_tail c rest h)
    · simp only [hp]
      simpa using h

/-! ## `nsp` and `urlMatchAt` lemmas -/

theorem nsp_cons_space (c : Char) (t : Str) (h : isSpacePy c = true) :
    nsp (c :: t) = [] := by
  simp [nsp, List.takeWhile_cons, h]

theorem nsp_cons_nonspace (c : Char) (t : Str) (h : isSpacePy c = false) :
    nsp (c :: t) = c :: nsp t := by
  simp [nsp, List.takeWhile_cons, h]

theorem nsp_idem (s : Str) : nsp (nsp s) = nsp s := by
  induction s with
  | nil => rfl
  | cons c t ih =>
    by_cases h : isSpacePy c = true
    · rw [nsp_cons_space c t h]; rfl
    · rw [nsp_cons_nonspace c t (by simpa using h),
        nsp_cons_nonspace c (nsp t) (by simpa using h), ih]

theorem nsp_dropWhile_nonspace (s : Str) :
    nsp (s.dropWhile (fun c => !isSpacePy c)) = [] := by
  induction s with
  | nil => rfl
  | cons c t ih =>
    rw [List.dropWhile_cons]
    by_cases h : isSpacePy c = true
    · simp only [h]
      exact nsp_cons_space c t h
    · simp only [h]
      simpa using ih

theorem startsCi_append (lit t u : Str) (h : startsCi lit t = true) :
    startsCi lit (t ++ u) = true := by
  induction lit generalizing t with
  | nil => rfl
  | cons p ps ih =>
    cases t with
    | nil => exact absurd h (by simp [startsCi])
    | cons c cs =>
      rw [List.cons_append]
      unfold startsCi at h ⊢
      simp only [Bool.and_eq_true] at h ⊢
      exact ⟨h.1, ih cs h.2⟩

theorem startsCi_nsp (lit : Str) (hlit : ∀ p ∈ lit, isSpacePy p = false) (s : Str) :
    startsCi lit s = startsCi lit (nsp s) := by
  induction lit generalizing s with
  | nil => rfl
  | cons p ps ih =>
    cases s with
    | nil => rfl
    | cons c cs =>
      by_cases h : isSpacePy c = true
      · rw [nsp_cons_space c cs h]
        unfold startsCi
        have hcp : (pyLowerChar c = p) = False := by
          simp only [eq_iff_iff, iff_false]
          intro he
          rw [pyLowerChar_of_space c h] at he
          subst he
          rw [hlit c (by simp)] at h
          exact absurd h (by decide)
        simp [hcp]
      · rw [nsp_cons_nonspace c cs (by simpa using h)]
        unfold startsCi
        rw [ih (fun q hq => hlit q (by simp [hq]))]

theorem nsRun_eq_nsp_length (s : Str) : nsRun s = (nsp s).length := rfl

theorem urlMatchAt_nsp (s : Str) : urlMatchAt (nsp s) = urlMatchAt s := by
  unfold urlMatchAt
  rw [← startsCi_nsp ['h','t','t','p','s',':','/','/'] (by decide) s,
      ← startsCi_nsp ['h','t','t','p',':','/','/'] (by decide) s,
      ← startsCi_nsp ['w','w','w','.'] (by decide) s]
  have hlen : nsRun (nsp s) = nsRun s := by
    rw [nsRun_eq_nsp_length, nsRun_eq_nsp_length, nsp_idem]
  rw [hlen]

theorem nsp_append_left (t u : Str) : nsp t <+: nsp (t ++ u) := by
  induction t with
  | nil => exact List.nil_prefix
  | cons c cs ih =>
    by_cases h : isSpacePy c = true
    · rw [nsp_cons_space c cs h]
      exact List.nil_prefix
    · rw [List.cons_append, nsp_cons_nonspace c cs (by simpa using h),
        nsp_cons_nonspace c (cs ++ u) (by simpa using h)]
      obtain ⟨v, hv⟩ := ih
      exact ⟨v, by rw [List.cons_append, hv]⟩

theorem urlMatchAt_mono (s t : Str) (h : nsp s <+: nsp t) (hm : urlMatchAt s = true) :
    urlMatchAt t = true := by
  rw [← urlMatchAt_nsp] at hm ⊢
  obtain ⟨u, hu⟩ := h
  rw [← hu]
  have hpre := nsp_append_left (nsp s) u
  have hlen : ∀ k : Nat, k ≤ nsRun (nsp s) → k ≤ nsRun (nsp s ++ u) := by
    intro k hk
    rw [nsRun_eq_nsp_length] at hk ⊢
    exact le_trans hk hpre.length_le
  unfold urlMatchAt at hm ⊢
  simp only [Bool.or_eq_true, Bool.and_eq_true, decide_eq_true_eq] at hm ⊢
  rcases hm with (⟨h1, h2⟩ | ⟨h1, h2⟩) | ⟨h1, h2⟩
  · exact Or.inl (Or.inl ⟨startsCi_append _ _ u h1, hlen 9 h2⟩)
  · exact Or.inl (Or.inr ⟨startsCi_append _ _ u h1, hlen 8 h2⟩)
  · exact Or.inr ⟨startsCi_append _ _ u h1, hlen 5 h2⟩

theorem urlMatchAt_space (c : Char) (rest : Str) (h : isSpacePy c = true) :
    urlMatchAt (c :: rest) = false := by
  rw [← urlMatchAt_nsp, nsp_cons_space c rest h]
  decide

theorem urlMatchAt_nsp_congr (a b : Str) (h : nsp a = nsp b) :
    urlMatchAt a = urlMatchAt b := by
  rw [← urlMatchAt_nsp, h, urlMatchAt_nsp]

theorem nsp_cons_mono (c : Char) (t u : Str) (h : nsp t <+: nsp u) :
    nsp (c :: t) <+: nsp (c :: u) := by
  by_cases hc : isSpacePy c = true
  · rw [nsp_cons_space c t hc, nsp_cons_space c u hc]
  · rw [nsp_cons_nonspace c t (by simpa using hc), nsp_cons_nonspace c u (by simpa using hc)]
    obtain ⟨v, hv⟩ := h
    exact ⟨v, by rw [List.cons_append, hv]⟩

theorem dropWhile_nonspace_head (l : Str) :
    l.dropWhile (fun c => !isSpacePy c) = [] ∨
    ∃ h, (l.dropWhile (fun c => !isSpacePy c)).head? = some h ∧ isSpacePy h = true := by
  induction l with
  | nil => exact Or.inl rfl
  | cons c rest ih =>
    rw [List.dropWhile_cons]
    by_cases hc : isSpacePy c = true
    · simp only [hc, Bool.not_true, if_false]
      exact Or.inr ⟨c, rfl, hc⟩
    · simp only [hc, Bool.not_false, if_true]
      exact ih

/-! ## `uRun` lemmas -/

theorem uRun_true_eq (s : Str) :
    uRun true s = uRun false (s.dropWhile (fun c => !isSpacePy c)) := by
  induction s with
  | nil => rfl
  | cons c rest ih =>
    rw [List.dropWhile_cons]
    by_cases hc : isSpacePy c = true
    · simp only [hc, Bool.not_true, if_false]
      have hm := urlMatchAt_space c rest hc
      simp [uRun, hc, hm]
    · simp only [hc, Bool.not_false, if_true]
      simp [uRun, hc, ih]

theorem nsp_uRun_fuel : ∀ (n : Nat) (s : Str), s.length ≤ n →
    nsp (uRun false s) <+: nsp s := by
  intro n
  induction n with
  | zero =>
    intro s hs
    have h0 : s = [] := List.length_eq_zero.mp (Nat.le_zero.mp hs)
    subst h0
    exact List.nil_prefix
  | succ n ih =>
    intro s hs
    cases s with
    | nil => exact List.nil_prefix
    | cons c rest =>
      have hrest : rest.length ≤ n := by
        simp only [List.length_cons] at hs
        omega
      by_cases hm : urlMatchAt (c :: rest) = true
      · rw [show uRun false (c :: rest) = uRun true rest by simp [uRun, hm], uRun_true_eq]
        have h2 := ih (rest.dropWhile (fun c => !isSpacePy c))
          (le_trans (dropWhile_len_le _ rest) hrest)
        rw [nsp_dropWhile_nonspace] at h2
        rw [List.prefix_nil.mp h2]
        exact List.nil_prefix
      · rw [show uRun false (c :: rest) = c :: uRun false rest by simp [uRun, hm]]
        exact nsp_cons_mono c _ rest (ih rest hrest)

theorem nsp_uRun (s : Str) : nsp (uRun false s) <+: nsp s :=
  nsp_uRun_fuel s.length s le_rfl

theorem hasUrl_uRun_fuel : ∀ (n : Nat) (s : Str), s.length ≤ n →
    hasUrl (uRun false s) = false := by
  intro n
  induction n with
  | zero =>
    intro s hs
    have h0 : s = [] := List.length_eq_zero.mp (Nat.le_zero.mp hs)
    subst h0
    rfl
  | succ n ih =>
    intro s hs
    cases s with
    | nil => rfl
    | cons c rest =>
      have hrest : rest.length ≤ n := by
        simp only [List.length_cons] at hs
        omega
      by_cases hm : urlMatchAt (c :: rest) = true
      · rw [show uRun false (c :: rest) = uRun true rest by simp [uRun, hm], uRun_true_eq]
        exact ih (rest.dropWhile (fun c => !isSpacePy c))
          (le_trans (dropWhile_len_le _ rest) hrest)
      · rw [show uRun false (c :: rest) = c :: uRun false rest by simp [uRun, hm]]
        have htail : hasUrl (uRun false rest) = false := ih rest hrest
        have hhead : urlMatchAt (c :: uRun false rest) = false := by
          cases hx : urlMatchAt (c :: uRun false rest)
          · rfl
          · have := urlMatchAt_mono _ _ (nsp_cons_mono c _ rest (nsp_uRun rest)) hx
            rw [this] at hm
            exact absurd rfl hm
        unfold hasUrl
        rw [hhead, htail]
        rfl

theorem hasUrl_uRun (s : Str) : hasUrl (uRun false s) = false :=
  hasUrl_uRun_fuel s.length s le_rfl

theorem uRun_id (s : Str) (h : hasUrl s = false) : uRun false s = s := by
  induction s with
  | nil => rfl
  | cons c rest ih =>
    unfold hasUrl at h
    simp only [Bool.or_eq_false_iff] at h
    simp [uRun, h.1, ih h.2]

theorem uRun_false_head_fuel : ∀ (n : Nat) (s : Str), s.length ≤ n →
    uRun false s = [] ∨ (uRun false s).head? = s.head? ∨
    (∃ h, (uRun false s).head? = some h ∧ isSpacePy h = true) := by
  intro n
  induction n with
  | zero =>
    intro s hs
    have h0 : s = [] := List.length_eq_zero.mp (Nat.le_zero.mp hs)
    subst h0
    exact Or.inl rfl
  | succ n ih =>
    intro s hs
    cases s with
    | nil => exact Or.inl rfl
    | cons c rest =>
      have hrest : rest.length ≤ n := by
        simp only [List.length_cons] at hs
        omega
      by_cases hm : urlMatchAt (c :: rest) = true
      · rw [show uRun false (c :: rest) = uRun true rest by simp [uRun, hm], uRun_true_eq]
        rcases ih (rest.dropWhile (fun c => !isSpacePy c))
          (le_trans (dropWhile_len_le _ rest) hrest) with h2 | h2 | h2
        · exact Or.inl h2
        · rcases dropWhile_nonspace_head rest with h3 | ⟨d, h3, h4⟩
          · left
            rw [h3]
            rfl
          · rw [h3] at h2
            exact Or.inr (Or.inr ⟨d, h2, h4⟩)
        · exact Or.inr (Or.inr h2)
      · rw [show uRun false (c :: rest) = c :: uRun false rest by simp [uRun, hm]]
        exact Or.inr (Or.inl rfl)

theorem uRun_false_head (s : Str) :
    uRun false s = [] ∨ (uRun false s).head? = s.head? ∨
    (∃ h, (uRun false s).head? = some h ∧ isSpacePy h = true) :=
  uRun_false_head_fuel s.length s le_rfl

theorem hasRT_uRun_fuel : ∀ (n : Nat) (s : Str), s.length ≤ n →
    hasRT (uRun false s) = true → hasRT s = true := by
  intro n
  induction n with
  | zero =>
    intro s hs h
    have h0 : s = [] := List.length_eq_zero.mp (Nat.le_zero.mp hs)
    subst h0
    exact h
  | succ n ih =>
    intro s hs h
    cases s with
    | nil => exact h
    | cons c rest =>
      have hrest : rest.length ≤ n := by
        simp only [List.length_cons] at hs
        omega
      by_cases hm : urlMatchAt (c :: rest) = true
      · rw [show uRun false (c :: rest) = uRun true rest by simp [uRun, hm],
          uRun_true_eq] at h
        have h2 := ih (rest.dropWhile (fun c => !isSpacePy c))
          (le_trans (dropWhile_len_le _ rest) hrest) h
        exact hasRT_cons c rest (hasRT_dropWhile _ rest h2)
      · rw [show uRun false (c :: rest) = c :: uRun false rest by simp [uRun, hm]] at h
        rcases hasRT_cons_elim c _ h with hp | hp
        · cases hx : uRun false rest with
          | nil => rw [hx] at hp; exact absurd hp (by simp [rtPair])
          | cons b t =>
            rw [hx] at hp
            have hp2 : (isCiR c && isCiT b) = true := hp
            simp only [Bool.and_eq_true] at hp2
            rcases uRun_false_head rest with h3 | h3 | ⟨d, h3, h4⟩
            · rw [hx] at h3; exact absurd h3 (by simp)
            · rw [hx] at h3
              cases rest with
              | nil => exact absurd h3.symm (by simp)
              | cons b2 t2 =>
                simp only [List.head?_cons, Option.some.injEq] at h3
                subst h3
                exact hasRT_pair c b t2 hp2.1 hp2.2
            · rw [hx] at h3
              simp only [List.head?_cons, Option.some.injEq] at h3
              subst h3
              rw [isCiT_nonspace b hp2.2] at h4
              exact absurd h4 (by decide)
        · exact hasRT_cons c rest (ih rest hrest hp)

theorem hasRT_uRun (s : Str) (h : hasRT (uRun false s) = true) : hasRT s = true :=
  hasRT_uRun_fuel s.length s le_rfl h

theorem mem_uRun (b : Bool) (s : Str) (c : Char) (h : c ∈ uRun b s) : c ∈ s := by
  induction s generalizing b with
  | nil => simp [uRun] at h
  | cons d rest ih =>
    unfold uRun at h
    split at h
    · exact List.mem_cons_of_mem d (ih true h)
    · split at h
      · exact List.mem_cons_of_mem d (ih true h)
      · rcases List.mem_cons.mp h with rfl | h2
        · exact List.mem_cons_self _ _
        · exact List.mem_cons_of_mem d (ih false h2)

/-! ## `cRun` lemmas -/

theorem cRun_true_eq (s : Str) : cRun true s = cRun false (s.dropWhile isSpacePy) := by
  induction s with
  | nil => rfl
  | cons c rest ih =>
    rw [List.dropWhile_cons]
    by_cases hc : isSpacePy c = true
    · simp only [hc, if_true]
      simp [cRun, hc, ih]
    · simp only [hc]
      simp [cRun, hc]

theorem nsp_cRun (s : Str) : nsp (cRun false s) = nsp s := by
  induction s with
  | nil => rfl
  | cons c rest ih =>
    by_cases hc : isSpacePy c = true
    · rw [show cRun false (c :: rest) = ' ' :: cRun true rest by simp [cRun, hc],
        nsp_cons_space ' ' _ (by decide), nsp_cons_space c rest hc]
    · rw [show cRun false (c :: rest) = c :: cRun false rest by simp [cRun, hc],
        nsp_cons_nonspace c _ (by simpa using hc),
        nsp_cons_nonspace c rest (by simpa using hc), ih]

theorem mem_cRun (b : Bool) (s : Str) (c : Char) (h : c ∈ cRun b s) : c ∈ s ∨ c = ' ' := by
  induction s generalizing b with
  | nil => simp [cRun] at h
  | cons d rest ih =>
    by_cases hd : isSpacePy d = true
    · have hsplit : c ∈ cRun true rest ∨ c = ' ' := by
        cases b
        · rw [show cRun false (d :: rest) = ' ' :: cRun true rest by simp [cRun, hd]] at h
          rcases List.mem_cons.mp h with rfl | h2
          · exact Or.inr rfl
          · exact Or.inl h2
        · rw [show cRun true (d :: rest) = cRun true rest by simp [cRun, hd]] at h
          exact Or.inl h
      rcases hsplit with h2 | h2
      · rcases ih true h2 with h3 | h3
        · exact Or.inl (List.mem_cons_of_mem d h3)
        · exact Or.inr h3
      · exact Or.inr h2
    · rw [show cRun b (d :: rest) = d :: cRun false rest by
        cases b <;> simp [cRun, hd]] at h
      rcases List.mem_cons.mp h with rfl | h2
      · exact Or.inl (List.mem_cons_self _ _)
      · rcases ih false h2 with h3 | h3
        · exact Or.inl (List.mem_cons_of_mem d h3)
        · exact Or.inr h3

theorem cRun_space_char (b : Bool) (s : Str) (c : Char) (h : c ∈ cRun b s)
    (hsp : isSpacePy c = true) : c = ' ' := by
  induction s generalizing b with
  | nil => simp [cRun] at h
  | cons d rest ih =>
    by_cases hd : isSpacePy d = true
    · have hsplit : c ∈ cRun true rest ∨ c = ' ' := by
        cases b
        · rw [show cRun false (d :: rest) = ' ' :: cRun true rest by simp [cRun, hd]] at h
          rcases List.mem_cons.mp h with rfl | h2
          · exact Or.inr rfl
          · exact Or.inl h2
        · rw [show cRun true (d :: rest) = cRun true rest by simp [cRun, hd]] at h
          exact Or.inl h
      rcases hsplit with h2 | h2
      · exact ih true h2
      · exact h2
    · rw [show cRun b (d :: rest) = d :: cRun false rest by
        cases b <;> simp [cRun, hd]] at h
      rcases List.mem_cons.mp h with rfl | h2
      · rw [hsp] at hd
        exact absurd rfl hd
      · exact ih false h2

theorem cRun_false_head (t : Str) :
    cRun false t = [] ∨ (∃ u, cRun false t = ' ' :: u) ∨
    (cRun false t).head? = t.head? := by
  cases t with
  | nil => exact Or.inl rfl
  | cons d rest =>
    by_cases hd : isSpacePy d = true
    · exact Or.inr (Or.inl ⟨cRun true rest, by simp [cRun, hd]⟩)
    · right; right
      rw [show cRun false (d :: rest) = d :: cRun false rest by simp [cRun, hd]]
      rfl

theorem cRun_dropspace_head (t : Str) :
    cRun false (t.dropWhile isSpacePy) = [] ∨
    ∃ d u, cRun false (t.dropWhile isSpacePy) = d :: u ∧ isSpacePy d = false := by
  induction t with
  | nil => exact Or.inl rfl
  | cons c rest ih =>
    rw [List.dropWhile_cons]
    by_cases hc : isSpacePy c = true
    · simp only [hc, if_true]
      exact ih
    · simp only [hc]
      exact Or.inr ⟨c, cRun false rest, by simp [cRun, hc], by simpa using hc⟩

theorem noTwoSpaces_cRun_fuel : ∀ (n : Nat) (s : Str), s.length ≤ n →
    noTwoSpaces (cRun false s) = true := by
  intro n
  induction n with
  | zero =>
    intro s hs
    have h0 : s = [] := List.length_eq_zero.mp (Nat.le_zero.mp hs)
    subst h0
    rfl
  | succ n ih =>
    intro s hs
    cases s with
    | nil => rfl
    | cons c rest =>
      have hrest : rest.length ≤ n := by
        simp only [List.length_cons] at hs
        omega
      by_cases hc : isSpacePy c = true
      · rw [show cRun false (c :: rest) = ' ' :: cRun true rest by simp [cRun, hc],
          cRun_true_eq]
        have htail := ih (rest.dropWhile isSpacePy)
          (le_trans (dropWhile_len_le _ rest) hrest)
        unfold noTwoSpaces
        rw [htail]
        rcases cRun_dropspace_head rest with h2 | ⟨d, u, h2, h3⟩
        · rw [h2]
          rfl
        · rw [h2, show spacePair ' ' (d :: u) = (isSpacePy ' ' && isSpacePy d) from rfl, h3]
          simp
      · have hc' : isSpacePy c = false := by simpa using hc
        rw [show cRun false (c :: rest) = c :: cRun false rest by simp [cRun, hc]]
        have htail := ih rest hrest
        unfold noTwoSpaces
        rw [htail]
        cases hx : cRun false rest with
        | nil => simp [spacePair]
        | cons d u =>
          rw [show spacePair c (d :: u) = (isSpacePy c && isSpacePy d) from rfl, hc']
          simp

theorem noTwoSpaces_cRun (s : Str) : noTwoSpaces (cRun false s) = true :=
  noTwoSpaces_cRun_fuel s.length s le_rfl

theorem hasRT_cRun_fuel : ∀ (n : Nat) (s : Str), s.length ≤ n →
    hasRT (cRun false s) = true → hasRT s = true := by
  intro n
  induction n with
  | zero =>
    intro s hs h
    have h0 : s = [] := List.length_eq_zero.mp (Nat.le_zero.mp hs)
    subst h0
    exact h
  | succ n ih =>
    intro s hs h
    cases s with
    | nil => exact h
    | cons c rest =>
      have hrest : rest.length ≤ n := by
        simp only [List.length_cons] at hs
        omega
      by_cases hc : isSpacePy c = true
      · rw [show cRun false (c :: rest) = ' ' :: cRun true rest by simp [cRun, hc],
          cRun_true_eq] at h
        rcases hasRT_cons_elim ' ' _ h with hp | hp
        · cases hx : cRun false (rest.dropWhile isSpacePy) with
          | nil => rw [hx] at hp; exact absurd hp (by simp [rtPair])
          | cons b t =>
            rw [hx] at hp
            have hp2 : (isCiR ' ' && isCiT b) = true := hp
            simp only [Bool.and_eq_true] at hp2
            exact absurd hp2.1 (by decide)
        · have h2 := ih (rest.dropWhile isSpacePy)
            (le_trans (dropWhile_len_le _ rest) hrest) hp
          exact hasRT_cons c rest (hasRT_dropWhile _ rest h2)
      · rw [show cRun false (c :: rest) = c :: cRun false rest by simp [cRun, hc]] at h
        rcases hasRT_cons_elim c _ h with hp | hp
        · cases hx : cRun false rest with
          | nil => rw [hx] at hp; exact absurd hp (by simp [rtPair])
          | cons b t =>
            rw [hx] at hp
            have hp2 : (isCiR c && isCiT b) = true := hp
            simp only [Bool.and_eq_true] at hp2
            rcases cRun_false_head rest with h3 | ⟨u, h3⟩ | h3
            · rw [h3] at hx; exact absurd hx (by simp)
            · rw [h3] at hx
              have hb : b = ' ' := by
                have := hx
                simp only [List.cons.injEq] at this
                exact this.1.symm
              rw [hb] at hp2
              exact absurd hp2.2 (by decide)
            · rw [hx] at h3
              cases rest with
              | nil => exact absurd h3.symm (by simp)
              | cons b2 t2 =>
                simp only [List.head?_cons, Option.some.injEq] at h3
                subst h3
                exact hasRT_pair c b t2 hp2.1 hp2.2
        · exact hasRT_cons c rest (ih rest hrest hp)

theorem hasRT_cRun (s : Str) (h : hasRT (cRun false s) = true) : hasRT s = true :=
  hasRT_cRun_fuel s.length s le_rfl h

theorem hasUrl_cRun_fuel : ∀ (n : Nat) (s : Str), s.length ≤ n →
    hasUrl (cRun false s) = true → hasUrl s = true := by
  intro n
  induction n with
  | zero =>
    intro s hs h
    have h0 : s = [] := List.length_eq_zero.mp (Nat.le_zero.mp hs)
    subst h0
    exact h
  | succ n ih =>
    intro s hs h
    cases s with
    | nil => exact h
    | cons c rest =>
      have hrest : rest.length ≤ n := by
        simp only [List.length_cons] at hs
        omega
      by_cases hc : isSpacePy c = true
      · rw [show cRun false (c :: rest) = ' ' :: cRun true rest by simp [cRun, hc],
          cRun_true_eq] at h
        unfold hasUrl at h
        rw [urlMatchAt_space ' ' _ (by decide)] at h
        simp only [Bool.false_or] at h
        have h2 := ih (rest.dropWhile isSpacePy)
          (le_trans (dropWhile_len_le _ rest) hrest) h
        exact hasUrl_cons c rest (hasUrl_dropWhile _ rest h2)
      · rw [show cRun false (c :: rest) = c :: cRun false rest by simp [cRun, hc]] at h
        unfold hasUrl at h
        simp only [Bool.or_eq_true] at h
        rcases h with hp | hp
        · unfold hasUrl
          have heq : urlMatchAt (c :: cRun false rest) = urlMatchAt (c :: rest) := by
            apply urlMatchAt_nsp_congr
            rw [nsp_cons_nonspace c _ (by simpa using hc),
              nsp_cons_nonspace c rest (by simpa using hc), nsp_cRun]
          rw [← heq, hp]
          simp
        · exact hasUrl_cons c rest (ih rest hrest hp)

theorem hasUrl_cRun (s : Str) (h : hasUrl (cRun false s) = true) : hasUrl s = true :=
  hasUrl_cRun_fuel s.length s le_rfl h

theorem cRun_id (s : Str) (hsp : ∀ c ∈ s, isSpacePy c = true → c = ' ')
    (hnt : noTwoSpaces s = true) :
    ∀ b : Bool, (b = true → firstNonSpace s = true) → cRun b s = s := by
  induction s with
  | nil => intro b _; rfl
  | cons c rest ih =>
    intro b hb
    by_cases hc : isSpacePy c = true
    · have hbf : b = false := by
        cases b
        · rfl
        · have h1 := hb rfl
          rw [show firstNonSpace (c :: rest) = !isSpacePy c from rfl, hc] at h1
          exact absurd h1 (by simp)
      subst hbf
      have hceq : c = ' ' := hsp c (List.mem_cons_self _ _) hc
      rw [show cRun false (c :: rest) = ' ' :: cRun true rest by simp [cRun, hc]]
      have hrest : cRun true rest = rest := by
        apply ih (fun d hd hsd => hsp d (List.mem_cons_of_mem c hd) hsd)
          (noTwoSpaces_tail c rest hnt) true
        intro _
        cases rest with
        | nil => rfl
        | cons d t =>
          unfold noTwoSpaces at hnt
          simp only [Bool.and_eq_true, Bool.not_eq_true'] at hnt
          rw [show spacePair c (d :: t) = (isSpacePy c && isSpacePy d) from rfl, hc] at hnt
          simp only [Bool.true_and] at hnt
          rw [show firstNonSpace (d :: t) = !isSpacePy d from rfl, hnt.1]
          rfl
      rw [hrest, hceq]
    · rw [show cRun b (c :: rest) = c :: cRun false rest by cases b <;> simp [cRun, hc]]
      rw [ih (fun d hd hsd => hsp d (List.mem_cons_of_mem c hd) hsd)
        (noTwoSpaces_tail c rest hnt) false (by simp)]

/-! ## `dropTrail` / `pyStrip` lemmas -/

theorem dropTrail_cons (c : Char) (rest : Str) :
    dropTrail (c :: rest) =
      if (dropTrail rest).isEmpty = true then (if isSpacePy c = true then [] else [c])
      else c :: dropTrail rest := rfl

theorem dropTrail_decomp (s : Str) :
    ∃ sfx, (∀ c ∈ sfx, isSpacePy c = true) ∧ s = dropTrail s ++ sfx := by
  induction s with
  | nil => exact ⟨[], by simp, rfl⟩
  | cons c rest ih =>
    obtain ⟨sfx, hsfx, heq⟩ := ih
    rw [dropTrail_cons]
    by_cases he : (dropTrail rest).isEmpty = true
    · have hre : dropTrail rest = [] := by
        cases hx : dropTrail rest
        · rfl
        · rw [hx] at he; exact absurd he (by simp)
      rw [hre] at heq
      simp only [List.nil_append] at heq
      by_cases hc : isSpacePy c = true
      · refine ⟨c :: sfx, ?_, ?_⟩
        · intro d hd
          rcases List.mem_cons.mp hd with rfl | h2
          · exact hc
          · exact hsfx d h2
        · rw [if_pos he, if_pos hc, List.nil_append, ← heq]
      · refine ⟨sfx, hsfx, ?_⟩
        rw [if_pos he, if_neg hc, List.cons_append, List.nil_append, ← heq]
    · refine ⟨sfx, hsfx, ?_⟩
      rw [if_neg he, List.cons_append, ← heq]

theorem dropTrail_head (s : Str) :
    dropTrail s = [] ∨ (dropTrail s).head? = s.head? := by
  cases s with
  | nil => exact Or.inl rfl
  | cons c rest =>
    rw [dropTrail_cons]
    by_cases he : (dropTrail rest).isEmpty = true
    · by_cases hc : isSpacePy c = true
      · rw [if_pos he, if_pos hc]
        exact Or.inl rfl
      · rw [if_pos he, if_neg hc]
        exact Or.inr rfl
    · rw [if_neg he]
      exact Or.inr rfl

theorem lastNonSpace_dropTrail (s : Str) : lastNonSpace (dropTrail s) = true := by
  induction s with
  | nil => rfl
  | cons c rest ih =>
    rw [dropTrail_cons]
    by_cases he : (dropTrail rest).isEmpty = true
    · by_cases hc : isSpacePy c = true
      · rw [if_pos he, if_pos hc]
        rfl
      · rw [if_pos he, if_neg hc]
        rw [show lastNonSpace [c] = !isSpacePy c from rfl,
          show isSpacePy c = false by simpa using hc]
        rfl
    · rw [if_neg he]
      cases hx : dropTrail rest with
      | nil => rw [hx] at he; exact absurd (by simp) he
      | cons d u =>
        rw [show lastNonSpace (c :: d :: u) = lastNonSpace (d :: u) by
          rw [show lastNonSpace (c :: d :: u) =
            (if (d :: u).isEmpty = true then !isSpacePy c else lastNonSpace (d :: u)) from rfl,
            if_neg (by simp)], ← hx]
        exact ih

theorem hasRT_dropTrail (s : Str) (h : hasRT (dropTrail s) = true) : hasRT s = true := by
  induction s with
  | nil => exact h
  | cons c rest ih =>
    rw [dropTrail_cons] at h
    by_cases he : (dropTrail rest).isEmpty = true
    · by_cases hc : isSpacePy c = true
      · rw [if_pos he, if_pos hc] at h
        exact absurd h (by decide)
      · rw [if_pos he, if_neg hc] at h
        exact absurd h (by simp [hasRT, rtPair])
    · rw [if_neg he] at h
      rcases hasRT_cons_elim c _ h with hp | hp
      · cases hx : dropTrail rest with
        | nil => rw [hx] at hp; exact absurd hp (by simp [rtPair])
        | cons b t =>
          rw [hx] at hp
          have hp2 : (isCiR c && isCiT b) = true := hp
          simp only [Bool.and_eq_true] at hp2
          rcases dropTrail_head rest with h3 | h3
          · rw [h3] at hx; exact absurd hx (by simp)
          · rw [hx] at h3
            cases rest with
            | nil => exact absurd h3.symm (by simp)
            | cons b2 t2 =>
              simp only [List.head?_cons, Option.some.injEq] at h3
              subst h3
              exact hasRT_pair c b t2 hp2.1 hp2.2
      · exact hasRT_cons c rest (ih hp)

theorem hasUrl_append_pre (pre u : Str) (h : hasUrl u = true) : hasUrl (pre ++ u) = true := by
  induction pre with
  | nil => exact h
  | cons c t ih => exact hasUrl_cons c (t ++ u) ih

theorem hasUrl_append_ext (t u : Str) (h : hasUrl t = true) : hasUrl (t ++ u) = true := by
  induction t with
  | nil => exact absurd h (by decide)
  | cons c rest ih =>
    unfold hasUrl at h
    simp only [Bool.or_eq_true] at h
    rw [List.cons_append]
    unfold hasUrl
    rcases h with hp | hp
    · rw [urlMatchAt_mono (c :: rest) (c :: (rest ++ u))
        (by rw [show c :: (rest ++ u) = (c :: rest) ++ u from rfl]; exact nsp_append_left _ u) hp]
      simp
    · rw [ih hp]
      simp

theorem hasUrl_dropTrail (s : Str) (h : hasUrl (dropTrail s) = true) : hasUrl s = true := by
  obtain ⟨sfx, _, heq⟩ := dropTrail_decomp s
  rw [heq]
  exact hasUrl_append_ext _ sfx h

theorem mem_dropTrail (s : Str) (c : Char) (h : c ∈ dropTrail s) : c ∈ s := by
  obtain ⟨sfx, _, heq⟩ := dropTrail_decomp s
  rw [heq]
  exact List.mem_append_left sfx h

theorem noTwoSpaces_dropTrail (s : Str) (h : noTwoSpaces s = true) :
    noTwoSpaces (dropTrail s) = true := by
  induction s with
  | nil => exact h
  | cons c rest ih =>
    rw [dropTrail_cons]
    have htail := ih (noTwoSpaces_tail c rest h)
    by_cases he : (dropTrail rest).isEmpty = true
    · by_cases hc : isSpacePy c = true
      · rw [if_pos he, if_pos hc]
        rfl
      · rw [if_pos he, if_neg hc]
        rfl
    · rw [if_neg he]
      unfold noTwoSpaces
      rw [htail]
      cases hx : dropTrail rest with
      | nil => rw [hx] at he; exact absurd (by simp) he
      | cons d u =>
        rcases dropTrail_head rest with h3 | h3
        · rw [h3] at hx; exact absurd hx (by simp)
        · rw [hx] at h3
          cases rest with
          | nil => exact absurd h3.symm (by simp)
          | cons d2 t2 =>
            simp only [List.head?_cons, Option.some.injEq] at h3
            subst h3
            unfold noTwoSpaces at h
            simp only [Bool.and_eq_true] at h
            rw [show spacePair c (d :: u) = (isSpacePy c && isSpacePy d) from rfl]
            rw [show spacePair c (d :: t2) = (isSpacePy c && isSpacePy d) from rfl] at h
            rw [show (!(isSpacePy c && isSpacePy d)) = true from h.1]
            rfl

theorem firstNonSpace_dropTrail (s : Str) (h : firstNonSpace s = true) :
    firstNonSpace (dropTrail s) = true := by
  rcases dropTrail_head s with h2 | h2
  · rw [h2]; rfl
  · cases hx : dropTrail s with
    | nil => rfl
    | cons d u =>
      rw [hx] at h2
      cases s with
      | nil => exact absurd h2.symm (by simp)
      | cons c rest =>
        simp only [List.head?_cons, Option.some.injEq] at h2
        subst h2
        exact h

theorem dropTrail_id (s : Str) (h : lastNonSpace s = true) : dropTrail s = s := by
  induction s with
  | nil => rfl
  | cons c rest ih =>
    rw [dropTrail_cons]
    cases hx : rest with
    | nil =>
      rw [hx] at h
      rw [show lastNonSpace [c] = !isSpacePy c from rfl] at h
      rw [if_pos (by rfl : (dropTrail ([] : Str)).isEmpty = true),
        if_neg (by simp only [Bool.not_eq_true'] at h; rw [h]; simp)]
    | cons d t =>
      rw [hx] at h ih
      have hr : dropTrail (d :: t) = d :: t := by
        apply ih
        rw [show lastNonSpace (c :: d :: t) =
          (if (d :: t).isEmpty = true then !isSpacePy c else lastNonSpace (d :: t)) from rfl,
          if_neg (by simp)] at h
        exact h
      rw [hr, if_neg (by simp)]

theorem firstNonSpace_dropWhile (s : Str) :
    firstNonSpace (s.dropWhile isSpacePy) = true := by
  induction s with
  | nil => rfl
  | cons c rest ih =>
    rw [List.dropWhile_cons]
    by_cases hc : isSpacePy c = true
    · simp only [hc, if_true]
      exact ih
    · rw [if_neg hc]
      rw [show firstNonSpace (c :: rest) = !isSpacePy c from rfl,
        show isSpacePy c = false by simpa using hc]
      rfl

theorem dropWhile_id_of_firstNonSpace (s : Str) (h : firstNonSpace s = true) :
    s.dropWhile isSpacePy = s := by
  cases s with
  | nil => rfl
  | cons c rest =>
    rw [show firstNonSpace (c :: rest) = !isSpacePy c from rfl] at h
    rw [List.dropWhile_cons, show isSpacePy c = false by simpa using h]
    simp

theorem pyStrip_id (s : Str) (h1 : firstNonSpace s = true) (h2 : lastNonSpace s = true) :
    pyStrip s = s := by
  unfold pyStrip
  rw [dropWhile_id_of_firstNonSpace s h1, dropTrail_id s h2]

/-! ## Pointwise-map lemmas (`pyLower`, `replaceChar`) -/

theorem lastNonSpace_cons2 (c d : Char) (t : Str) :
    lastNonSpace (c :: d :: t) = lastNonSpace (d :: t) := by
  rw [show lastNonSpace (c :: d :: t) =
    (if (d :: t).isEmpty = true then !isSpacePy c else lastNonSpace (d :: t)) from rfl,
    if_neg (by simp)]

theorem hasRT_map (f : Char → Char) (hR : ∀ c, isCiR (f c) = true → isCiR c = true)
    (hT : ∀ c, isCiT (f c) = true → isCiT c = true) (s : Str)
    (h : hasRT (s.map f) = true) : hasRT s = true := by
  induction s with
  | nil => exact h
  | cons c rest ih =>
    rw [List.map_cons] at h
    rcases hasRT_cons_elim (f c) _ h with hp | hp
    · cases rest with
      | nil => exact absurd hp (by simp [rtPair])
      | cons b t =>
        rw [List.map_cons] at hp
        have hp2 : (isCiR (f c) && isCiT (f b)) = true := hp
        simp only [Bool.and_eq_true] at hp2
        exact hasRT_pair c b t (hR c hp2.1) (hT b hp2.2)
    · exact hasRT_cons c rest (ih hp)

theorem noTwoSpaces_map (f : Char → Char) (hsp : ∀ c, isSpacePy (f c) = isSpacePy c)
    (s : Str) (h : noTwoSpaces s = true) : noTwoSpaces (s.map f) = true := by
  induction s with
  | nil => exact h
  | cons c rest ih =>
    rw [List.map_cons]
    unfold noTwoSpaces
    have htail : noTwoSpaces (rest.map f) = true := ih (noTwoSpaces_tail c rest h)
    rw [htail]
    cases rest with
    | nil => simp [spacePair]
    | cons b t =>
      rw [List.map_cons,
        show spacePair (f c) (f b :: t.map f) = (isSpacePy (f c) && isSpacePy (f b)) from rfl,
        hsp c, hsp b]
      unfold noTwoSpaces at h
      simp only [Bool.and_eq_true] at h
      rw [show spacePair c (b :: t) = (isSpacePy c && isSpacePy b) from rfl] at h
      rw [show (!(isSpacePy c && isSpacePy b)) = true from h.1]
      rfl

theorem firstNonSpace_map (f : Char → Char) (hsp : ∀ c, isSpacePy (f c) = isSpacePy c)
    (s : Str) (h : firstNonSpace s = true) : firstNonSpace (s.map f) = true := by
  cases s with
  | nil => rfl
  | cons c rest =>
    rw [List.map_cons, show firstNonSpace (f c :: rest.map f) = !isSpacePy (f c) from rfl,
      hsp c]
    exact h

theorem lastNonSpace_map (f : Char → Char) (hsp : ∀ c, isSpacePy (f c) = isSpacePy c)
    (s : Str) (h : lastNonSpace s = true) : lastNonSpace (s.map f) = true := by
  induction s with
  | nil => rfl
  | cons c rest ih =>
    rw [List.map_cons]
    cases rest with
    | nil =>
      simp only [List.map_nil]
      rw [show lastNonSpace [f c] = !isSpacePy (f c) from rfl, hsp c]
      rw [show lastNonSpace [c] = !isSpacePy c from rfl] at h
      exact h
    | cons b t =>
      rw [List.map_cons, lastNonSpace_cons2, ← List.map_cons]
      rw [lastNonSpace_cons2] at h
      exact ih h

theorem pyLower_idem (s : Str) : pyLower (pyLower s) = pyLower s := by
  unfold pyLower
  rw [List.map_map]
  apply List.map_congr_left
  intro c _
  exact pyLowerChar_idem c

theorem startsCi_pyLower (lit s : Str) : startsCi lit (pyLower s) = startsCi lit s := by
  induction lit generalizing s with
  | nil => rfl
  | cons p ps ih =>
    cases s with
    | nil => rfl
    | cons c cs =>
      show startsCi (p :: ps) (pyLowerChar c :: pyLower cs) = _
      unfold startsCi
      rw [pyLowerChar_idem c, ih cs]

theorem nsp_pyLower (s : Str) : nsp (pyLower s) = pyLower (nsp s) := by
  induction s with
  | nil => rfl
  | cons c cs ih =>
    by_cases hc : isSpacePy c = true
    · rw [show pyLower (c :: cs) = pyLowerChar c :: pyLower cs from rfl,
        nsp_cons_space _ _ (by rw [isSpacePy_pyLowerChar]; exact hc),
        nsp_cons_space c cs hc]
      rfl
    · have hc' : isSpacePy c = false := by simpa using hc
      rw [show pyLower (c :: cs) = pyLowerChar c :: pyLower cs from rfl,
        nsp_cons_nonspace _ _ (by rw [isSpacePy_pyLowerChar]; exact hc'),
        nsp_cons_nonspace c cs hc', ih]
      rfl

theorem urlMatchAt_pyLower (s : Str) : urlMatchAt (pyLower s) = urlMatchAt s := by
  unfold urlMatchAt
  rw [startsCi_pyLower, startsCi_pyLower, startsCi_pyLower]
  have : nsRun (pyLower s) = nsRun s := by
    rw [nsRun_eq_nsp_length, nsRun_eq_nsp_length, nsp_pyLower]
    exact List.length_map _ _
  rw [this]

theorem hasUrl_pyLower (s : Str) : hasUrl (pyLower s) = hasUrl s := by
  induction s with
  | nil => rfl
  | cons c rest ih =>
    show hasUrl (pyLowerChar c :: pyLower rest) = _
    unfold hasUrl
    rw [show pyLowerChar c :: pyLower rest = pyLower (c :: rest) from rfl,
      urlMatchAt_pyLower, ih]

theorem hasRT_pyLower (s : Str) (h : hasRT (pyLower s) = true) : hasRT s = true := by
  apply hasRT_map pyLowerChar _ _ s h
  · intro c hc
    unfold isCiR at hc ⊢
    simp only [Bool.or_eq_true, decide_eq_true_eq] at hc ⊢
    rcases pyLowerChar_pair c with h2 | h2
    · rw [h2] at hc; exact hc
    · rcases hc with hc | hc
      · exact Or.inr (h2.2.2.1 hc)
      · exact absurd hc h2.2.2.2.2.1
  · intro c hc
    unfold isCiT at hc ⊢
    simp only [Bool.or_eq_true, decide_eq_true_eq] at hc ⊢
    rcases pyLowerChar_pair c with h2 | h2
    · rw [h2] at hc; exact hc
    · rcases hc with hc | hc
      · exact Or.inr (h2.2.2.2.1 hc)
      · exact absurd hc h2.2.2.2.2.2.1

theorem replaceChar_cons (a b c : Char) (rest : Str) :
    replaceChar a b (c :: rest) = (if c = a then b else c) :: replaceChar a b rest := rfl

theorem replaceChar_id (a b : Char) (s : Str) (h : a ∉ s) : replaceChar a b s = s := by
  induction s with
  | nil => rfl
  | cons c rest ih =>
    rw [replaceChar_cons, if_neg (fun he => h (by rw [← he]; exact List.mem_cons_self c rest)),
      ih (fun he => h (List.mem_cons_of_mem c he))]

theorem mem_replaceChar (a b : Char) (s : Str) (c : Char) (h : c ∈ replaceChar a b s) :
    c ∈ s ∨ c = b := by
  unfold replaceChar at h
  obtain ⟨d, hd, hc⟩ := List.mem_map.mp h
  by_cases hda : d = a
  · rw [if_pos hda] at hc
    exact Or.inr hc.symm
  · rw [if_neg hda] at hc
    exact Or.inl (hc ▸ hd)

theorem nsp_replaceChar (a : Char) (ha : isSpacePy a = true) (s : Str) :
    nsp (replaceChar a ' ' s) = nsp s := by
  induction s with
  | nil => rfl
  | cons c cs ih =>
    rw [replaceChar_cons]
    by_cases hc : isSpacePy c = true
    · have himg : isSpacePy (if c = a then ' ' else c) = true := by
        by_cases hca : c = a
        · rw [if_pos hca]; decide
        · rw [if_neg hca]; exact hc
      rw [nsp_cons_space _ _ himg, nsp_cons_space c cs hc]
    · have hca : ¬ c = a := by
        intro he
        rw [he, ha] at hc
        exact hc rfl
      rw [if_neg hca, nsp_cons_nonspace c _ (by simpa using hc),
        nsp_cons_nonspace c cs (by simpa using hc), ih]

theorem hasUrl_replaceChar (a : Char) (ha : isSpacePy a = true) (s : Str) :
    hasUrl (replaceChar a ' ' s) = hasUrl s := by
  induction s with
  | nil => rfl
  | cons c rest ih =>
    rw [replaceChar_cons]
    unfold hasUrl
    rw [show (if c = a then ' ' else c) :: replaceChar a ' ' rest =
      replaceChar a ' ' (c :: rest) from rfl,
      urlMatchAt_nsp_congr _ _ (nsp_replaceChar a ha (c :: rest)), ih]

theorem hasRT_replaceChar (a : Char) (s : Str)
    (h : hasRT (replaceChar a ' ' s) = true) : hasRT s = true := by
  apply hasRT_map (fun c => if c = a then ' ' else c) _ _ s h
  · intro c hc
    have hc2 : isCiR (if c = a then ' ' else c) = true := hc
    by_cases hca : c = a
    · rw [if_pos hca] at hc2
      exact absurd hc2 (by decide)
    · rw [if_neg hca] at hc2
      exact hc2
  · intro c hc
    have hc2 : isCiT (if c = a then ' ' else c) = true := hc
    by_cases hca : c = a
    · rw [if_pos hca] at hc2
      exact absurd hc2 (by decide)
    · rw [if_neg hca] at hc2
      exact hc2

/-! ## Identity lemmas for the substitution passes -/

theorem htmlUnescape_id (s : Str) (h : ∀ c ∈ s, c ≠ '&') : htmlUnescape s = s := by
  induction s with
  | nil => rfl
  | cons c rest ih =>
    have hc : c ≠ '&' := h c (List.mem_cons_self c rest)
    have htail : htmlUnescape rest = rest := ih (fun d hd => h d (List.mem_cons_of_mem c hd))
    rw [htmlUnescape.eq_def]
    split <;>
      first
        | rfl
        | (rename_i heq
           rw [List.cons.injEq] at heq
           exact absurd heq.1 hc)
        | (rename_i c2 rest2 heq
           rw [List.cons.injEq] at heq
           rw [← heq.1, ← heq.2, htail])
        | (rename_i heq
           exact absurd heq (by simp))

theorem mRun_id (s : Str) (h : '@' ∉ s) : mRun false s = s := by
  induction s with
  | nil => rfl
  | cons c rest ih =>
    have hc : ¬ c = '@' := fun he => h (by rw [← he]; exact List.mem_cons_self c rest)
    have htail : mRun false rest = rest := ih (fun he => h (List.mem_cons_of_mem c he))
    simp [mRun, hc, htail]

theorem hashtagSub_id (s : Str) (h : '#' ∉ s) : hashtagSub s = s := by
  induction s with
  | nil => rfl
  | cons c rest ih =>
    have hc : ¬ c = '#' := fun he => h (by rw [← he]; exact List.mem_cons_self c rest)
    have htail : hashtagSub rest = rest := ih (fun he => h (List.mem_cons_of_mem c he))
    simp [hashtagSub, hc, htail]

/-! ## `rtStrip` lemmas -/

theorem rtStrip_id_of_noRT (s : Str) (h : hasRT s = false) : rtStrip s = s := by
  unfold rtStrip
  split
  · rename_i r t c rest heq
    rw [if_neg]
    intro hcond
    simp only [Bool.and_eq_true] at hcond
    have hpair : hasRT (r :: t :: c :: rest) = true :=
      hasRT_pair r t (c :: rest) hcond.1.1 hcond.1.2
    rw [← heq] at hpair
    rw [hasRT_dropWhile isSpacePy s hpair] at h
    exact absurd h (by simp)
  · rfl

theorem mem_rtStrip (s : Str) (c : Char) (h : c ∈ rtStrip s) : c ∈ s := by
  unfold rtStrip at h
  split at h
  · rename_i r t d rest heq
    split at h
    · have h2 : c ∈ d :: rest := (List.dropWhile_sublist isSpacePy).mem h
      have h3 : c ∈ r :: t :: d :: rest :=
        List.mem_cons_of_mem r (List.mem_cons_of_mem t h2)
      rw [← heq] at h3
      exact (List.dropWhile_sublist isSpacePy).mem h3
    · exact h
  · exact h

theorem hasRT_rtStrip (s : Str) (h : hasRT (rtStrip s) = true) : hasRT s = true := by
  unfold rtStrip at h
  split at h
  · rename_i r t d rest heq
    split at h
    · have h2 : hasRT (d :: rest) = true := hasRT_dropWhile isSpacePy (d :: rest) h
      have h3 : hasRT (r :: t :: d :: rest) = true :=
        hasRT_cons r _ (hasRT_cons t _ h2)
      rw [← heq] at h3
      exact hasRT_dropWhile isSpacePy s h3
    · exact h
  · exact h

theorem hasUrl_rtStrip (s : Str) (h : hasUrl (rtStrip s) = true) : hasUrl s = true := by
  unfold rtStrip at h
  split at h
  · rename_i r t d rest heq
    split at h
    · have h2 : hasUrl (d :: rest) = true := hasUrl_dropWhile isSpacePy (d :: rest) h
      have h3 : hasUrl (r :: t :: d :: rest) = true :=
        hasUrl_cons r _ (hasUrl_cons t _ h2)
      rw [← heq] at h3
      exact hasUrl_dropWhile isSpacePy s h3
    · exact h
  · exact h

/-! ## Composite lemmas about the pipeline tail -/

theorem mem_pyStrip (t : Str) (c : Char) (h : c ∈ pyStrip t) : c ∈ t :=
  (List.dropWhile_sublist isSpacePy).mem (mem_dropTrail _ c h)

theorem hasRT_pyStrip (t : Str) (h : hasRT (pyStrip t) = true) : hasRT t = true :=
  hasRT_dropWhile isSpacePy t (hasRT_dropTrail _ h)

theorem hasUrl_pyStrip (t : Str) (h : hasUrl (pyStrip t) = true) : hasUrl t = true :=
  hasUrl_dropWhile isSpacePy t (hasUrl_dropTrail _ h)

/-- The final three steps of `clean_text` (whitespace collapse, strip,
lowercase) always produce a string with no edge whitespace, no two adjacent
whitespace characters, and every whitespace character equal to `' '`. -/
theorem stripped_props (w : Str) :
    firstNonSpace (pyLower (pyStrip (cRun false w))) = true ∧
    lastNonSpace (pyLower (pyStrip (cRun false w))) = true ∧
    noTwoSpaces (pyLower (pyStrip (cRun false w))) = true ∧
    (∀ c ∈ pyLower (pyStrip (cRun false w)), isSpacePy c = true → c = ' ') := by
  have hfirst : firstNonSpace (pyStrip (cRun false w)) = true :=
    firstNonSpace_dropTrail _ (firstNonSpace_dropWhile _)
  have hlast : lastNonSpace (pyStrip (cRun false w)) = true :=
    lastNonSpace_dropTrail _
  have hnt : noTwoSpaces (pyStrip (cRun false w)) = true :=
    noTwoSpaces_dropTrail _ (noTwoSpaces_dropWhile isSpacePy _ (noTwoSpaces_cRun w))
  have hsp : ∀ c ∈ pyStrip (cRun false w), isSpacePy c = true → c = ' ' := by
    intro c hc hspc
    exact cRun_space_char false w c (mem_pyStrip _ c hc) hspc
  refine ⟨firstNonSpace_map pyLowerChar isSpacePy_pyLowerChar _ hfirst,
    lastNonSpace_map pyLowerChar isSpacePy_pyLowerChar _ hlast,
    noTwoSpaces_map pyLowerChar isSpacePy_pyLowerChar _ hnt, ?_⟩
  intro c hc hspc
  obtain ⟨d, hd, hdc⟩ := List.mem_map.mp hc
  have hsd : isSpacePy d = true := by
    rw [← isSpacePy_pyLowerChar d, hdc]
    exact hspc
  have := hsp d hd hsd
  rw [← hdc, this]
  decide

/-- Restatement of `cleanTextStr` with the scanner stages exposed. -/
theorem cleanTextStr_eq (x : Str) :
    cleanTextStr x = pyLower (pyStrip (cRun false (replaceChar '\r' ' '
      (replaceChar '\n' ' ' (hashtagSub (mentionSub (uRun false
        (rtStrip (htmlUnescape x))))))))) := rfl

theorem mentionSub_id (s : Str) (h : '@' ∉ s) : mentionSub s = s := mRun_id s h

/-- A stripped/collapsed/lowercased string is a fixed point of `clean_text`
as soon as it contains none of the characters the earlier passes act on. -/
theorem cleanTextStr_fixed (y : Str)
    (hamp : ∀ c ∈ y, c ≠ '&') (hat : '@' ∉ y) (hhash : '#' ∉ y)
    (hrt : hasRT y = false) (hurl : hasUrl y = false)
    (hfirst : firstNonSpace y = true) (hlast : lastNonSpace y = true)
    (hnt : noTwoSpaces y = true) (hsp : ∀ c ∈ y, isSpacePy c = true → c = ' ')
    (hlow : pyLower y = y) :
    cleanTextStr y = y := by
  have hnl : '\n' ∉ y := fun hmem => absurd (hsp '\n' hmem (by decide)) (by decide)
  have hcr : '\r' ∉ y := fun hmem => absurd (hsp '\r' hmem (by decide)) (by decide)
  rw [cleanTextStr_eq, htmlUnescape_id y hamp, rtStrip_id_of_noRT y hrt,
    uRun_id y hurl, mentionSub_id y hat, hashtagSub_id y hhash,
    replaceChar_id '\n' ' ' y hnl, replaceChar_id '\r' ' ' y hcr,
    cRun_id y hsp hnt false (by simp), pyStrip_id y hfirst hlast, hlow]

theorem mem_mRun (b : Bool) (s : Str) (c : Char) (h : c ∈ mRun b s) : c ∈ s := by
  induction s generalizing b with
  | nil => simp [mRun] at h
  | cons d rest ih =>
    unfold mRun at h
    split at h
    · exact List.mem_cons_of_mem d (ih true h)
    · split at h
      · exact List.mem_cons_of_mem d (ih true h)
      · rcases List.mem_cons.mp h with rfl | h2
        · exact List.mem_cons_self _ _
        · exact List.mem_cons_of_mem d (ih false h2)

theorem mem_hashtagSub (s : Str) (c : Char) (h : c ∈ hashtagSub s) : c ∈ s := by
  induction s with
  | nil => simp [hashtagSub] at h
  | cons d rest ih =>
    unfold hashtagSub at h
    split at h
    · exact List.mem_cons_of_mem d (ih h)
    · rcases List.mem_cons.mp h with rfl | h2
      · exact List.mem_cons_self _ _
      · exact List.mem_cons_of_mem d (ih h2)

/-- Every character of the post-unescape pipeline output is either the
lowercase image of an input character or a space. -/
theorem mem_clean_tail (w : Str) (c : Char)
    (h : c ∈ pyLower (pyStrip (cRun false (replaceChar '\r' ' ' (replaceChar '\n' ' '
      (hashtagSub (mentionSub (uRun false (rtStrip w))))))))) :
    (∃ d ∈ w, pyLowerChar d = c) ∨ c = ' ' := by
  obtain ⟨d0, hd0, hc⟩ := List.mem_map.mp h
  have hd1 := mem_pyStrip _ d0 hd0
  rcases mem_cRun false _ d0 hd1 with hd2 | hd2
  · rcases mem_replaceChar '\r' ' ' _ d0 hd2 with hd3 | hd3
    · rcases mem_replaceChar '\n' ' ' _ d0 hd3 with hd4 | hd4
      · have hd5 := mem_hashtagSub _ d0 hd4
        have hd6 := mem_mRun false _ d0 hd5
        have hd7 := mem_uRun false _ d0 hd6
        have hd8 := mem_rtStrip w d0 hd7
        exact Or.inl ⟨d0, hd8, hc⟩
      · rw [hd4] at hc
        rw [← hc]
        exact Or.inr (by decide)
    · rw [hd3] at hc
      rw [← hc]
      exact Or.inr (by decide)
  · rw [hd2] at hc
    rw [← hc]
    exact Or.inr (by decide)

/-- Transfer of `hasRT` back from the post-unescape pipeline output to its
input. -/
theorem hasRT_clean_tail (w : Str)
    (h : hasRT (pyLower (pyStrip (cRun false (replaceChar '\r' ' ' (replaceChar '\n' ' '
      (hashtagSub (mentionSub (uRun false (rtStrip w))))))))) = true)
    (hat : '@' ∉ uRun false (rtStrip w)) (hhash : '#' ∉ uRun false (rtStrip w)) :
    hasRT w = true := by
  rw [mentionSub_id _ hat, hashtagSub_id _ hhash] at h
  have h1 := hasRT_pyStrip _ (hasRT_pyLower _ h)
  have h2 := hasRT_cRun _ h1
  have h3 := hasRT_replaceChar '\r' _ h2
  have h4 := hasRT_replaceChar '\n' _ h3
  have h5 := hasRT_uRun _ h4
  exact hasRT_rtStrip w h5

/-- Absence of URL matches in the post-unescape pipeline output. -/
theorem hasUrl_clean_tail (w : Str)
    (hat : '@' ∉ uRun false (rtStrip w)) (hhash : '#' ∉ uRun false (rtStrip w)) :
    hasUrl (pyLower (pyStrip (cRun false (replaceChar '\r' ' ' (replaceChar '\n' ' '
      (hashtagSub (mentionSub (uRun false (rtStrip w))))))))) = false := by
  rw [mentionSub_id _ hat, hashtagSub_id _ hhash]
  cases hx : hasUrl (pyLower (pyStrip (cRun false (replaceChar '\r' ' '
    (replaceChar '\n' ' ' (uRun false (rtStrip w))))))) with
  | false => rfl
  | true =>
    exfalso
    rw [hasUrl_pyLower] at hx
    have h1 := hasUrl_cRun _ (hasUrl_pyStrip _ hx)
    rw [hasUrl_replaceChar '\r' (by decide), hasUrl_replaceChar '\n' (by decide)] at h1
    rw [hasUrl_uRun (rtStrip w)] at h1
    exact absurd h1 (by simp)

/-! ## Claim theorems about `clean_text` -/

/-- C10: for every input string, the output of `clean_text` has no leading
or trailing whitespace, contains no newline or carriage-return character,
and contains no run of two or more consecutive whitespace characters. -/
theorem clean_text_whitespace_normal (x : Str) :
    firstNonSpace (cleanTextStr x) = true ∧ lastNonSpace (cleanTextStr x) = true ∧
    noTwoSpaces (cleanTextStr x) = true ∧ '\n' ∉ cleanTextStr x ∧ '\r' ∉ cleanTextStr x := by
  obtain ⟨h1, h2, h3, h4⟩ := stripped_props (replaceChar '\r' ' ' (replaceChar '\n' ' '
    (hashtagSub (mentionSub (uRun false (rtStrip (htmlUnescape x)))))))
  rw [cleanTextStr_eq]
  refine ⟨h1, h2, h3, ?_, ?_⟩
  · intro hmem
    exact absurd (h4 '\n' hmem (by decide)) (by decide)
  · intro hmem
    exact absurd (h4 '\r' hmem (by decide)) (by decide)

/-- C1 (counterexample): `clean_text` is not idempotent.  On
`"rt rt hi"` the anchored `RT_RE` strips one leading `rt ` per
application, so a second application changes `"rt hi"` to `"hi"`. -/
theorem clean_text_not_idempotent :
    cleanTextStr (cleanTextStr (strL "rt rt hi")) ≠ cleanTextStr (strL "rt rt hi") := by
  decide

/-- C1 (amended): `clean_text` is idempotent on every input that contains
none of the characters `&`, `@`, `#` and no occurrence of `r`/`R`
immediately followed by `t`/`T`. -/
theorem clean_text_idempotent_amended (x : Str)
    (ha : ∀ c ∈ x, c ≠ '&' ∧ c ≠ '@' ∧ c ≠ '#') (hb : hasRT x = false) :
    cleanTextStr (cleanTextStr x) = cleanTextStr x := by
  have hamp : ∀ c ∈ x, c ≠ '&' := fun c hc => (ha c hc).1
  have hat0 : '@' ∉ uRun false (rtStrip x) := fun hmem =>
    absurd rfl (ha '@' (mem_rtStrip x '@' (mem_uRun false _ '@' hmem))).2.1
  have hhash0 : '#' ∉ uRun false (rtStrip x) := fun hmem =>
    absurd rfl (ha '#' (mem_rtStrip x '#' (mem_uRun false _ '#' hmem))).2.2
  have hxy : cleanTextStr x = pyLower (pyStrip (cRun false (replaceChar '\r' ' '
      (replaceChar '\n' ' ' (hashtagSub (mentionSub (uRun false (rtStrip x)))))))) := by
    rw [cleanTextStr_eq, htmlUnescape_id x hamp]
  obtain ⟨hfirst, hlast, hnt, hsp⟩ := stripped_props (replaceChar '\r' ' '
    (replaceChar '\n' ' ' (hashtagSub (mentionSub (uRun false (rtStrip x))))))
  have hampy : ∀ c ∈ pyLower (pyStrip (cRun false (replaceChar '\r' ' '
      (replaceChar '\n' ' ' (hashtagSub (mentionSub (uRun false (rtStrip x)))))))), c ≠ '&' := by
    intro c hc he
    rcases mem_clean_tail x c hc with ⟨d, hd, hdc⟩ | hs
    · rw [he] at hdc
      exact (ha d hd).1 (pyLowerChar_eq_amp d hdc)
    · rw [he] at hs
      exact absurd hs (by decide)
  have haty : '@' ∉ pyLower (pyStrip (cRun false (replaceChar '\r' ' '
      (replaceChar '\n' ' ' (hashtagSub (mentionSub (uRun false (rtStrip x)))))))) := by
    intro hc
    rcases mem_clean_tail x '@' hc with ⟨d, hd, hdc⟩ | hs
    · exact (ha d hd).2.1 (pyLowerChar_eq_at d hdc)
    · exact absurd hs (by decide)
  have hhashy : '#' ∉ pyLower (pyStrip (cRun false (replaceChar '\r' ' '
      (replaceChar '\n' ' ' (hashtagSub (mentionSub (uRun false (rtStrip x)))))))) := by
    intro hc
    rcases mem_clean_tail x '#' hc with ⟨d, hd, hdc⟩ | hs
    · exact (ha d hd).2.2 (pyLowerChar_eq_hash d hdc)
    · exact absurd hs (by decide)
  have hrty : hasRT (pyLower (pyStrip (cRun false (replaceChar '\r' ' '
      (replaceChar '\n' ' ' (hashtagSub (mentionSub (uRun false (rtStrip x))))))))) = false := by
    cases hx2 : hasRT (pyLower (pyStrip (cRun false (replaceChar '\r' ' '
      (replaceChar '\n' ' ' (hashtagSub (mentionSub (uRun false (rtStrip x))))))))) with
    | false => rfl
    | true =>
      rw [hasRT_clean_tail x hx2 hat0 hhash0] at hb
      exact absurd hb (by simp)
  have hurly := hasUrl_clean_tail x hat0 hhash0
  have hlow : pyLower (pyLower (pyStrip (cRun false (replaceChar '\r' ' '
      (replaceChar '\n' ' ' (hashtagSub (mentionSub (uRun false (rtStrip x))))))))) =
      pyLower (pyStrip (cRun false (replaceChar '\r' ' '
      (replaceChar '\n' ' ' (hashtagSub (mentionSub (uRun false (rtStrip x)))))))) :=
    pyLower_idem _
  rw [hxy]
  exact cleanTextStr_fixed _ hampy haty hhashy hrty hurly hfirst hlast hnt hsp hlow

/-- C1 (witness): the amended idempotence applied to `"Hello World"`. -/
theorem clean_text_idempotent_amended_witness :
    cleanTextStr (cleanTextStr (strL "Hello World")) = cleanTextStr (strL "Hello World") :=
  clean_text_idempotent_amended (strL "Hello World") (by decide) (by decide)

/-- C2 (counterexample): on the spec's example input `clean_text` does not
return `"check govote!!"`: removing the mention `@alice` leaves its
trailing colon in place. -/
theorem clean_text_example_colon_ne :
    cleanTextStr (strL "RT @alice: Check http://x.co/abc #GoVote!!") ≠
      strL "check govote!!" := by
  decide

/-- C2 (amended): `clean_text` on the spec's example input returns
`": check govote!!"` — mention and URL removed, RT prefix removed, hashtag
symbol stripped, case folded, punctuation (including the colon that
followed the mention) preserved. -/
theorem clean_text_example_colon :
    cleanTextStr (strL "RT @alice: Check http://x.co/abc #GoVote!!") =
      strL ": check govote!!" := by
  decide

/-- C8: `clean_text` decodes the HTML entity `&amp;` and preserves the
emoji: no cleaning step removes non-ASCII symbolic characters. -/
theorem clean_text_entity_emoji :
    cleanTextStr (strL "&amp; love this 😀") = strL "& love this 😀" := by
  decide

/-- C9: `clean_text` maps null/missing input to the empty string rather
than raising. -/
theorem clean_text_none_empty : clean_text none = strL "" := rfl

theorem dedupAux_sublist (key : List Str → Str) (rows : List (List Str)) :
    ∀ seen, (dedupAux key seen rows).Sublist rows := by
  induction rows with
  | nil => intro seen; simp [dedupAux]
  | cons r rest ih =>
    intro seen
    unfold dedupAux
    by_cases h : key r ∈ seen
    · rw [if_pos h]
      exact (ih seen).cons r
    · rw [if_neg h]
      exact (ih (key r :: seen)).cons₂ r

theorem dedupAux_not_seen (key : List Str → Str) (rows : List (List Str)) :
    ∀ seen r, r ∈ dedupAux key seen rows → key r ∉ seen := by
  induction rows with
  | nil => intro seen r h; simp [dedupAux] at h
  | cons x rest ih =>
    intro seen r h
    unfold dedupAux at h
    by_cases hx : key x ∈ seen
    · rw [if_pos hx] at h
      exact ih seen r h
    · rw [if_neg hx] at h
      rcases List.mem_cons.mp h with rfl | h2
      · exact hx
      · intro hcon
        exact ih (key x :: seen) r h2 (List.mem_cons_of_mem _ hcon)

theorem dedupAux_pairwise (key : List Str → Str) (rows : List (List Str)) :
    ∀ seen, (dedupAux key seen rows).Pairwise (fun r s => key r ≠ key s) := by
  induction rows with
  | nil => intro seen; simp [dedupAux]
  | cons x rest ih =>
    intro seen
    unfold dedupAux
    by_cases hx : key x ∈ seen
    · rw [if_pos hx]
      exact ih seen
    · rw [if_neg hx]
      refine List.Pairwise.cons ?_ (ih (key x :: seen))
      intro s hs he
      exact dedupAux_not_seen key rest (key x :: seen) s hs (he ▸ List.mem_cons_self _ _)

theorem dedupAux_find (key : List Str → Str) (rows : List (List Str)) :
    ∀ seen r, r ∈ dedupAux key seen rows →
      rows.find? (fun s => key s == key r) = some r := by
  induction rows with
  | nil => intro seen r h; simp [dedupAux] at h
  | cons x rest ih =>
    intro seen r h
    unfold dedupAux at h
    by_cases hx : key x ∈ seen
    · rw [if_pos hx] at h
      have hne : key x ≠ key r := by
        intro he
        exact dedupAux_not_seen key rest seen r h (he ▸ hx)
      rw [List.find?_cons_of_neg _ (by simpa using hne), ih seen r h]
    · rw [if_neg hx] at h
      rcases List.mem_cons.mp h with rfl | h2
      · rw [List.find?_cons_of_pos _ (by simp)]
      · have hne : key r ≠ key x := by
          intro he
          exact dedupAux_not_seen key rest (key x :: seen) r h2 (he ▸ List.mem_cons_self _ _)
        rw [List.find?_cons_of_neg _ (by simpa using hne.symm), ih (key x :: seen) r h2]

theorem dedupAux_complete (key : List Str → Str) (rows : List (List Str)) :
    ∀ seen r, r ∈ rows →
      key r ∈ seen ∨ ∃ s ∈ dedupAux key seen rows, key s = key r := by
  induction rows with
  | nil => intro seen r h; simp at h
  | cons x rest ih =>
    intro seen r h
    unfold dedupAux
    by_cases hx : key x ∈ seen
    · rw [if_pos hx]
      rcases List.mem_cons.mp h with rfl | h2
      · exact Or.inl hx
      · exact ih seen r h2
    · rw [if_neg hx]
      rcases List.mem_cons.mp h with rfl | h2
      · exact Or.inr ⟨r, List.mem_cons_self _ _, rfl⟩
      · rcases ih (key x :: seen) r h2 with hseen | ⟨s, hs, he⟩
        · rcases List.mem_cons.mp hseen with he2 | he2
          · exact Or.inr ⟨x, List.mem_cons_self _ _, he2.symm⟩
          · exact Or.inl he2
        · exact Or.inr ⟨s, List.mem_cons_of_mem x hs, he⟩

theorem dedupKeyed_keepsFirst (key : List Str → Str) (rows : List (List Str)) :
    KeepsFirstBy key rows (dedupKeyed key rows) := by
  refine ⟨dedupAux_sublist key rows [], dedupAux_pairwise key rows [],
    fun r hr => dedupAux_find key rows [] r hr, fun r hr => ?_⟩
  rcases dedupAux_complete key rows [] r hr with hseen | h
  · simp at hseen
  · exact h

/-! ## Frame stage lemmas -/

theorem dedupStage_cols (f : Frame) (ti : Nat) : (dedupStage f ti).cols = f.cols := by
  unfold dedupStage
  split <;> rfl

theorem dedupStage_rows_sublist (f : Frame) (ti : Nat) :
    (dedupStage f ti).rows.Sublist f.rows := by
  unfold dedupStage
  split
  · exact dedupAux_sublist _ f.rows []
  · exact dedupAux_sublist _ f.rows []

theorem idxOf_append_left (n : Str) (l l2 : List Str) (i : Nat)
    (h : idxOf n l = some i) : idxOf n (l ++ l2) = some i := by
  induction l generalizing i with
  | nil => simp [idxOf] at h
  | cons c cs ih =>
    rw [List.cons_append]
    rw [show idxOf n (c :: cs) = if c = n then some 0 else (idxOf n cs).map (· + 1) from rfl] at h
    rw [show idxOf n (c :: (cs ++ l2)) =
      if c = n then some 0 else (idxOf n (cs ++ l2)).map (· + 1) from rfl]
    by_cases hc : c = n
    · rw [if_pos hc] at h ⊢
      exact h
    · rw [if_neg hc] at h ⊢
      cases hx : idxOf n cs with
      | none => rw [hx] at h; simp at h
      | some j =>
        rw [hx] at h
        simp only [Option.map_some'] at h
        rw [ih j hx]
        simpa using h

theorem ensureCol_shape (f : Frame) (n : Str) :
    ((ensureCol f n).cols = f.cols ∧ (ensureCol f n).rows = f.rows) ∨
    ((ensureCol f n).cols = f.cols ++ [n] ∧
      (ensureCol f n).rows = f.rows.map (· ++ [[]])) := by
  unfold ensureCol
  by_cases h : n ∈ f.cols
  · rw [if_pos h]
    exact Or.inl ⟨rfl, rfl⟩
  · rw [if_neg h]
    exact Or.inr ⟨rfl, rfl⟩

theorem ensureAll_shape (ns : List Str) : ∀ f : Frame,
    ∃ pad : List Str,
      (∀ i, ∀ n : Str, idxOf n f.cols = some i → idxOf n (ensureAll f ns).cols = some i) ∧
      (ensureAll f ns).rows = f.rows.map (· ++ pad) := by
  induction ns with
  | nil =>
    intro f
    refine ⟨[], fun i n h => h, ?_⟩
    simp [ensureAll]
  | cons n ns ih =>
    intro f
    obtain ⟨pad, hidx, hrows⟩ := ih (ensureCol f n)
    rcases ensureCol_shape f n with ⟨hc, hr⟩ | ⟨hc, hr⟩
    · refine ⟨pad, ?_, ?_⟩
      · intro i m h
        exact hidx i m (by rw [hc]; exact h)
      · show (ensureAll (ensureCol f n) ns).rows = _
        rw [hrows, hr]
    · refine ⟨[] :: pad, ?_, ?_⟩
      · intro i m h
        exact hidx i m (by rw [hc]; exact idxOf_append_left m f.cols [n] i h)
      · show (ensureAll (ensureCol f n) ns).rows = _
        rw [hrows, hr, List.map_map]
        apply List.map_congr_left
        intro r _
        show (r ++ [[]]) ++ pad = r ++ ([] :: pad)
        rw [List.append_assoc]
        rfl

theorem getCell_append_of_ne (r pad : List Str) (i : Nat) (h : getCell r i ≠ []) :
    getCell (r ++ pad) i = getCell r i := by
  induction r generalizing i with
  | nil => exact absurd rfl h
  | cons v vs ih =>
    cases i with
    | zero => rfl
    | succ j => exact ih j h

theorem getCell_canonMap_one (g : Str → Str) :
    getCell (canonCols.map g) 1 = g textName := rfl

/-- Every row of the pipeline output has, in field 1 (the `text` column),
the non-empty, language-accepted cleaned text of the row it came from. -/
theorem pipelineTail_text (det : Detector) (i : Nat) (f : Frame)
    (hi : idxOf textName f.cols = some i) (r : List Str)
    (hr : r ∈ (pipelineTail det i f).rows) :
    getCell r 1 ≠ [] ∧ is_english det (getCell r 1) = true := by
  unfold pipelineTail projectStage selectCols at hr
  simp only [List.mem_map] at hr
  obtain ⟨r9, hr9, hrdef⟩ := hr
  obtain ⟨pad, hidx, hrows⟩ :=
    ensureAll_shape canonCols (dedupStage (nonemptyStage i (englishStage det i (cleanStage i f))) i)
  rw [hrows] at hr9
  simp only [List.mem_map] at hr9
  obtain ⟨r8, hr8, hr9def⟩ := hr9
  have hr7 : r8 ∈ (nonemptyStage i (englishStage det i (cleanStage i f))).rows :=
    (dedupStage_rows_sublist _ i).mem hr8
  unfold nonemptyStage at hr7
  simp only [List.mem_filter] at hr7
  obtain ⟨hr6, hnemp⟩ := hr7
  unfold englishStage at hr6
  simp only [List.mem_filter] at hr6
  obtain ⟨hr5, heng⟩ := hr6
  have hne2 : getCell r8 i ≠ [] := by
    intro he
    rw [he] at hnemp
    exact absurd hnemp (by decide)
  have hidx2 : idxOf textName
      (ensureAll (dedupStage (nonemptyStage i (englishStage det i (cleanStage i f))) i)
        canonCols).cols = some i := by
    apply hidx
    rw [dedupStage_cols]
    exact hi
  have hcell : getCell r 1 = getCell r8 i := by
    rw [← hrdef, getCell_canonMap_one, hidx2]
    show getCell r9 i = getCell r8 i
    rw [← hr9def, getCell_append_of_ne r8 pad i hne2]
  rw [hcell]
  exact ⟨hne2, heng⟩

/-! ## Claim theorems about `is_english` and `load_and_clean` -/

/-- C7: when the language-detection capability is unavailable (`detect is
None`), `is_english` accepts exactly the non-empty all-ASCII texts. -/
theorem is_english_ascii_fallback (t : Str) :
    is_english none t = (!t.isEmpty && t.all isAsciiChar) := by
  cases t with
  | nil => rfl
  | cons c rest => simp [is_english]

/-- C4: the deduplication step keeps the first occurrence in original row
order — by `tweet_id` when that column exists in the reconciled table, and
by the cleaned text (column `ti`) otherwise. -/
theorem dedup_keeps_first (f : Frame) (ti : Nat) :
    (∀ j, idxOf tweetIdName f.cols = some j →
      KeepsFirstBy (fun r => getCell r j) f.rows (dedupStage f ti).rows) ∧
    (idxOf tweetIdName f.cols = none →
      KeepsFirstBy (fun r => getCell r ti) f.rows (dedupStage f ti).rows) := by
  constructor
  · intro j hj
    unfold dedupStage
    rw [hj]
    exact dedupKeyed_keepsFirst _ f.rows
  · intro hn
    unfold dedupStage
    rw [hn]
    exact dedupKeyed_keepsFirst _ f.rows

/-- C4 (witness): deduplication by `tweet_id` on a concrete frame with a
duplicated id. -/
theorem dedup_keeps_first_witness :
    KeepsFirstBy (fun r => getCell r 0) frameW.rows (dedupStage frameW 1).rows :=
  (dedup_keeps_first frameW 1).1 0 (by decide)

/-- C5: every record in the output of `load_and_clean` has non-empty text
(the text field is at position 1 of the canonical projection). -/
theorem output_text_nonempty (det : Detector) (cfg : SourceConfig) (raw : Frame)
    (df : Frame) (r : List Str) (h : load_and_clean det cfg raw = Except.ok df)
    (hr : r ∈ df.rows) : getCell r 1 ≠ [] := by
  unfold load_and_clean at h
  cases hidx : idxOf textName (stamp cfg (reconcile cfg raw)).cols with
  | none =>
    rw [hidx] at h
    exact Except.noConfusion h
  | some i =>
    rw [hidx] at h
    have hdf : pipelineTail det i (stamp cfg (reconcile cfg raw)) = df := by
      simpa using h
    rw [← hdf] at hr
    exact (pipelineTail_text det i _ hidx r hr).1

/-- C5 (witness): the single surviving row of a concrete raw table has
non-empty text. -/
theorem output_text_nonempty_witness :
    getCell [strL "1", strL "hello world", strL "democrat", strL "2020"] 1 ≠ [] :=
  output_text_nonempty detEnW cfgW0 rawW0
    { cols := canonCols,
      rows := [[strL "1", strL "hello world", strL "democrat", strL "2020"]] }
    [strL "1", strL "hello world", strL "democrat", strL "2020"] (by rfl) (by decide)

/-- C6: a detection failure on a text is treated as "not English": the
record is excluded from the output, and `load_and_clean` still returns a
dataset (no fatal error) whenever the text column is present. -/
theorem detection_failure_not_fatal (d : Str → DetectResult) (t : Str)
    (cfg : SourceConfig) (raw : Frame) (hf : d t = DetectResult.failure) :
    is_english (some d) t = false ∧
    ∀ i, idxOf textName (stamp cfg (reconcile cfg raw)).cols = some i →
      ∃ out, load_and_clean (some d) cfg raw = Except.ok out ∧
        ∀ r ∈ out.rows, getCell r 1 ≠ t := by
  have h1 : is_english (some d) t = false := by
    unfold is_english
    by_cases he : t.isEmpty = true
    · rw [if_pos he]
    · rw [if_neg he]
      show (match d t with
        | DetectResult.lang code => decide (code = strL "en")
        | DetectResult.failure => false) = false
      rw [hf]
  refine ⟨h1, ?_⟩
  intro i hi
  refine ⟨pipelineTail (some d) i (stamp cfg (reconcile cfg raw)), ?_, ?_⟩
  · unfold load_and_clean
    rw [hi]
  · intro r hr heq
    have h2 := (pipelineTail_text (some d) i _ hi r hr).2
    rw [heq, h1] at h2
    exact absurd h2 (by simp)

/-- C6 (witness): a detector that always raises rejects `"bonjour"`. -/
theorem detection_failure_not_fatal_witness :
    is_english (some (fun _ => DetectResult.failure)) (strL "bonjour") = false :=
  (detection_failure_not_fatal (fun _ => DetectResult.failure) (strL "bonjour")
    cfgW0 rawW0 rfl).1

/-- C3 (counterexample): a configured date column absent from the raw table
does not raise — `load_and_clean` still returns a dataset (pandas `rename`
ignores missing keys and `created_at` is never selected). -/
theorem load_and_clean_missing_date_ok :
    cfgW2.date_col ∉ rawW2.cols ∧
    load_and_clean detEnW cfgW2 rawW2 = Except.ok
      { cols := canonCols,
        rows := [[strL "9", strL "nice day", strL "democrat", strL "2024"]] } :=
  ⟨by decide, by rfl⟩

/-- C3 (amended): `load_and_clean` raises (`KeyError('text')`) exactly when
reconciliation leaves no `text` column — in particular when the configured
text column is absent; missing date or id columns alone are tolerated. -/
theorem load_and_clean_missing_text_errors (det : Detector) (cfg : SourceConfig)
    (raw : Frame) (h : idxOf textName (stamp cfg (reconcile cfg raw)).cols = none) :
    load_and_clean det cfg raw = Except.error textName := by
  unfold load_and_clean
  rw [h]

/-- C3 (witness): a raw table without the configured `Text` column makes
`load_and_clean` return the `KeyError`. -/
theorem load_and_clean_missing_text_errors_witness :
    load_and_clean detEnW cfgW2 rawW3 = Except.error textName :=
  load_and_clean_missing_text_errors detEnW cfgW2 rawW3 (by decide)
